import Mathlib

/-!
Hashcash proof-of-work: generator, search, verifier and command line.

A shallow embedding of `Xorshift.cpp`, `hashcash1.cpp` and `main.cpp`.

Conventions of the embedding.

* A `byte` is `Fin 256`; a `uint64_t` is a natural number kept below `2^64` by an explicit
  `% 2^64` wherever the source can overflow; `int32_t` and `clock_t` values are integers.
* Buffers are lists. A read through a pointer is bounds checked: a function returns `none`
  where the source would read outside the buffer it was given.
* The digest function (`CryptoPP::SHA512`) is not part of the repository. It is a parameter
  `H : Hash`: any function from byte strings to 64-byte strings.
* The secure random pool that seeds `Xorshift` is a parameter `entropy : Nat → Nat`
  (the `i`-th 64-bit word it delivers); `clock()` is a parameter too: the reading taken at
  the start and the list of readings taken at the end of the successive loop iterations.
* `uint32_t` stores into a byte buffer are little-endian (the x86 targets of the project).
-/

set_option maxRecDepth 1000000

namespace Hashcash

/-- An unsigned 8-bit value. -/
abbrev Byte := Fin 256

/-- The byte with value `n mod 256` (the conversion `(byte)n`). -/
def toByte (n : Nat) : Byte := ⟨n % 256, Nat.mod_lt n (by decide)⟩

/-- A digest function producing 64 bytes, standing for `SHA512::CalculateDigest`. -/
structure Hash where
  digest : List Byte → List Byte
  size : ∀ m, (digest m).length = 64

/-! ## Xorshift.cpp -/

/-- The generator object: the word array `s` (64 words) and the index `p`. -/
structure Xorshift where
  s : List Nat
  p : Nat
deriving DecidableEq, Repr

/-- Constructor `Xorshift::Xorshift()`: `p = 0` and the 64 words of `s` filled from the
random pool. -/
def Xorshift.create (entropy : Nat → Nat) : Xorshift :=
  { s := (List.range 64).map (fun i => entropy i % 2 ^ 64), p := 0 }

/-- Method `Xorshift::next()`. The two reads of `s` are bounds checked. -/
def Xorshift.next (x : Xorshift) : Option (Nat × Xorshift) :=
  match x.s[x.p]? with
  | none => none
  | some s0 =>
    let p1 := (x.p + 1) &&& 63
    match x.s[p1]? with
    | none => none
    | some s1 =>
      let s1a := s1 ^^^ ((s1 <<< 25) % 2 ^ 64)
      let s1b := s1a ^^^ (s1a >>> 3)
      let s0c := s0 ^^^ (s0 >>> 49)
      let r := s0c ^^^ s1b
      some ((r * 8372773778140471301) % 2 ^ 64, { s := x.s.set p1 r, p := p1 })

/-! ## hashcash1.cpp -/

/-- The four bytes that `((uint32_t*)buf)[i] = w` stores for a 64-bit `w`: the low 32 bits of
`w`, least significant byte first. -/
def storeBytes32 (w : Nat) : List Byte :=
  [toByte (w % 2 ^ 32), toByte (w % 2 ^ 32 / 2 ^ 8), toByte (w % 2 ^ 32 / 2 ^ 16),
   toByte (w % 2 ^ 32 / 2 ^ 24)]

/-- The store `((uint32_t*)buf)[i] = w`: bytes `4i .. 4i+3` of `buf` are overwritten. -/
def storeU32 (buf : List Byte) (i : Nat) (w : Nat) : List Byte :=
  buf.take (4 * i) ++ storeBytes32 w ++ buf.drop (4 * i + 4)

/-- The stores `((uint32_t*)currentState)[i] = xorshift.next()` for the `k` slots
`i, i+1, ..., i+k-1`, in that order. -/
def fillSlots : Nat → Nat → Xorshift → List Byte → Option (List Byte × Xorshift)
  | 0, _, x, buf => some (buf, x)
  | k + 1, i, x, buf =>
    match x.next with
    | none => none
    | some (w, x1) => fillSlots k (i + 1) x1 (storeU32 buf i w)

/-- The local variables of `hashcash1_Create`, and one ghost field, `hashed`: the buffers
passed to `CalculateDigest` so far, oldest first. -/
structure SearchState where
  xorshift : Xorshift
  currentState : List Byte
  currentResult : List Byte
  finalState : List Byte
  finalResult : List Byte
  hashed : List (List Byte)
deriving DecidableEq, Repr

/-- The comparison loop `for (i = 0; i < hashSize; i++)` of `hashcash1_Create`, started at
index `i` with `n` indices left: `true` when it reaches the branch that copies the candidate
over the incumbent. -/
def replaces (finalResult currentResult : List Byte) : Nat → Nat → Bool
  | 0, _ => false
  | n + 1, i =>
    let c : Int := ((finalResult.getD i 0).val : Int) - ((currentResult.getD i 0).val : Int)
    if c < 0 then false
    else if c = 0 then replaces finalResult currentResult n (i + 1)
    else true

/-- Lines 21-61 of `hashcash1_Create`: the generator is constructed, the challenge is copied
behind both prefixes, the first candidate is generated and hashed, and it becomes the
incumbent. The 64 bytes of `currentState` in front of the challenge are not initialised
in the source; they are all overwritten before the first read. -/
def hashcash1_Create_init (H : Hash) (entropy : Nat → Nat) (value : List Byte) :
    Option SearchState :=
  if value.length < 64 then none
  else
    let currentState0 := List.replicate 64 (0 : Byte) ++ value.take 64
    match fillSlots 16 0 (Xorshift.create entropy) currentState0 with
    | none => none
    | some (currentState, x) =>
      let currentResult := H.digest currentState
      some { xorshift := x, currentState := currentState, currentResult := currentResult,
             finalState := currentState, finalResult := currentResult,
             hashed := [currentState] }

/-- Lines 65-103: the body of the search loop up to the clock reading. -/
def hashcash1_Create_step (H : Hash) (st : SearchState) : Option SearchState :=
  match fillSlots 16 0 st.xorshift st.currentState with
  | none => none
  | some (currentState, x) =>
    let currentResult := H.digest currentState
    if replaces st.finalResult currentResult 64 0 then
      some { xorshift := x, currentState := currentState, currentResult := currentResult,
             finalState := currentState, finalResult := currentResult,
             hashed := st.hashed ++ [currentState] }
    else
      some { xorshift := x, currentState := currentState, currentResult := currentResult,
             finalState := st.finalState, finalResult := st.finalResult,
             hashed := st.hashed ++ [currentState] }

/-- The loop `for (;;)`: one iteration per clock reading; it is left at the end of the
iteration whose reading `clockEnd` makes
`((clockEnd - clockStart) / CLOCKS_PER_SEC) > timeout` true. `none` when the readings
supplied run out before that (the loop has not ended). -/
def hashcash1_Create_loop (H : Hash) (clocksPerSec clockStart timeout : Int) :
    List Int → SearchState → Option SearchState
  | [], _ => none
  | clockEnd :: readings, st =>
    match hashcash1_Create_step H st with
    | none => none
    | some st1 =>
      if (clockEnd - clockStart).tdiv clocksPerSec > timeout then some st1
      else hashcash1_Create_loop H clocksPerSec clockStart timeout readings st1

/-- The state of `hashcash1_Create` when it leaves the loop. -/
def hashcash1_Create_run (H : Hash) (entropy : Nat → Nat) (clocksPerSec clockStart : Int)
    (readings : List Int) (value : List Byte) (timeout : Int) : Option SearchState :=
  match hashcash1_Create_init H entropy value with
  | none => none
  | some st0 => hashcash1_Create_loop H clocksPerSec clockStart timeout readings st0

/-- Function `hashcash1_Create(value, timeout)`: the first 64 bytes of `finalState`. -/
def hashcash1_Create (H : Hash) (entropy : Nat → Nat) (clocksPerSec clockStart : Int)
    (readings : List Int) (value : List Byte) (timeout : Int) : Option (List Byte) :=
  match hashcash1_Create_run H entropy clocksPerSec clockStart readings value timeout with
  | none => none
  | some st => some (st.finalState.take 64)

/-- The inner loop `for (j = 0; j < 8; j++)` of `hashcash1_Verify` on the byte `b`, started
at bit `j` with `n` bits left. Returns the count and whether `goto End` was taken. -/
def scanByte (b : Byte) : Nat → Nat → Int → Int × Bool
  | 0, _, count => (count, false)
  | n + 1, j, count =>
    if (b.val <<< j) &&& 0x80 = 0 then scanByte b n (j + 1) (count + 1)
    else (count, true)

/-- The outer loop `for (i = 0; i < hashSize; i++)` of `hashcash1_Verify`, started at byte
`i` with `n` bytes left. -/
def scanDigest (currentResult : List Byte) : Nat → Nat → Int → Int
  | 0, _, count => count
  | n + 1, i, count =>
    match scanByte (currentResult.getD i 0) 8 0 count with
    | (count1, true) => count1
    | (count1, false) => scanDigest currentResult n (i + 1) count1

/-- Function `hashcash1_Verify(key, value)`. The generator it constructs is never used. -/
def hashcash1_Verify (H : Hash) (entropy : Nat → Nat) (key value : List Byte) : Option Int :=
  let _xorshift := Xorshift.create entropy
  if key.length < 64 then none
  else if value.length < 64 then none
  else
    let currentState := key.take 64 ++ value.take 64
    let currentResult := H.digest currentState
    some (scanDigest currentResult 64 0 0)

/-! ## Test doubles used to run the definitions -/

/-- A digest for running the definitions: the first 64 bytes of the message (zero padded). -/
def demoHash : Hash where
  digest := fun m => (m ++ List.replicate 64 (0 : Byte)).take 64
  size := by intro m; simp

/-- A random pool for running the definitions. -/
def demoEntropy (i : Nat) : Nat := (i + 1) * 11400714819323198485

/-! ## Orders, reachable states and the score as the specification words it -/

/-- Strict unsigned byte-wise lexicographic order on byte strings. -/
def digestLT : List Byte → List Byte → Prop
  | a :: as, b :: bs => a.val < b.val ∨ (a = b ∧ digestLT as bs)
  | [], _ :: _ => True
  | _, [] => False

/-- Unsigned byte-wise lexicographic order on byte strings. -/
def digestLE (d e : List Byte) : Prop := digestLT d e ∨ d = e

/-- The states `hashcash1_Create` is in at the end of its initialisation and at the end of
each iteration of its loop. -/
inductive Reachable (H : Hash) (entropy : Nat → Nat) (value : List Byte) : SearchState → Prop
  | init {st : SearchState} : hashcash1_Create_init H entropy value = some st →
      Reachable H entropy value st
  | step {st st1 : SearchState} : Reachable H entropy value st →
      hashcash1_Create_step H st = some st1 → Reachable H entropy value st1

/-- The invariant of the search: the buffers keep their layout, the incumbent digest is the
digest of the incumbent buffer, and the incumbent is the first of the hashed buffers whose
digest is minimal. -/
structure SearchInv (H : Hash) (challenge : List Byte) (st : SearchState) : Prop where
  cur_len : st.currentState.length = 128
  cur_chal : st.currentState.drop 64 = challenge
  hashed_wf : ∀ m ∈ st.hashed, m.length = 128 ∧ m.drop 64 = challenge
  result : st.finalResult = H.digest st.finalState
  first_min : ∃ pre post, st.hashed = pre ++ st.finalState :: post ∧
    (∀ m ∈ pre, digestLT st.finalResult (H.digest m)) ∧
    (∀ m ∈ post, digestLE st.finalResult (H.digest m))

/-- The eight bits of a byte, most significant bit first. -/
def byteBits (b : Byte) : List Bool :=
  [b.val.testBit 7, b.val.testBit 6, b.val.testBit 5, b.val.testBit 4,
   b.val.testBit 3, b.val.testBit 2, b.val.testBit 1, b.val.testBit 0]

/-- The bits of a byte string: byte 0 first, each byte most significant bit first. -/
def digestBits : List Byte → List Bool
  | [] => []
  | b :: bs => byteBits b ++ digestBits bs

/-- The score as the specification words it: the number of zero bits in front of the first
one bit of the digest, all the bits of the digest when there is no one bit. -/
def leadingZeroBits (d : List Byte) : Nat :=
  ((digestBits d).takeWhile (fun t => !t)).length

/-! ## main.cpp -/

/-- The conversion of an unsigned value to `int32_t` (twos-complement wrap-around): the low
31 bits, less `2^31` when bit 31 is set. -/
def toInt32 (n : Nat) : Int :=
  if n / 2 ^ 31 % 2 = 0 then ((n % 2 ^ 31 : Nat) : Int) else ((n % 2 ^ 31 : Nat) : Int) - 2 ^ 31

/-- The number of iterations of `for (int32_t i = n - 1; i >= 0; i--)` for a `size_t` value
`n`: `n - 1` is computed in `size_t` (64 bits, so `2^64 - 1` for `n = 0`), converted to
`int32_t`, and the loop runs `i + 1` times when that is not negative. -/
def countdownIterations : Nat → Nat
  | 0 => (toInt32 (2 ^ 64 - 1) + 1).toNat
  | k + 1 => (toInt32 k + 1).toNat

/-- Function `getHexValue(c)`. -/
def getHexValue (c : Nat) : Char :=
  if c < 10 then Char.ofNat (c + '0'.toNat) else Char.ofNat (c - 10 + 'a'.toNat)

/-- The characters of a character buffer up to its first NUL: the construction of a
`std::string` from a `char*`. -/
def cString (chars : List Char) : List Char :=
  chars.takeWhile (fun c => c != Char.ofNat 0)

/-- The loop of `toHexString`, with `n` iterations left and `t_value` pointing at the rest of
the input: the characters written. `none` when it reads past the end of the input. -/
def toHexString_loop : Nat → List Byte → Option (List Char)
  | 0, _ => some []
  | _ + 1, [] => none
  | n + 1, b :: t_value =>
    match toHexString_loop n t_value with
    | none => none
    | some chars => some (getHexValue (b.val >>> 4) :: getHexValue (b.val &&& 0x0F) :: chars)

/-- Function `toHexString(value, length)`. -/
def toHexString (value : List Byte) (length : Nat) : Option (List Char) :=
  match toHexString_loop (countdownIterations length) value with
  | none => none
  | some chars => some (cString chars)

/-- The value that the `if` chain of `fromHexString` gives to `i1` (or `i2`) for the
character `c`; the variable keeps its initial value 0 when no branch is taken. -/
def hexDigitValue (c : Char) : Nat :=
  if '0' ≤ c ∧ c ≤ '9' then c.toNat - '0'.toNat
  else if 'a' ≤ c ∧ c ≤ 'f' then (c.toNat - 'a'.toNat) + 10
  else if 'A' ≤ c ∧ c ≤ 'F' then (c.toNat - 'A'.toNat) + 10
  else 0

/-- The loop of `fromHexString`, with `n` iterations left and `t_value` pointing at the rest
of the string: the bytes written. `none` when it reads past the end of the string. -/
def fromHexString_loop : Nat → List Char → Option (List Byte)
  | 0, _ => some []
  | n + 1, c1 :: c2 :: t_value =>
    match fromHexString_loop n t_value with
    | none => none
    | some buffer => some (toByte ((hexDigitValue c1 <<< 4) ||| hexDigitValue c2) :: buffer)
  | _ + 1, _ => none

/-- Function `fromHexString(value, size)`: the bytes the loop writes into the buffer, and `size`. -/
def fromHexString (value : List Char) : Option (List Byte × Nat) :=
  let value1 := if value.length % 2 ≠ 0 then '0' :: value else value
  let size := value1.length / 2
  match fromHexString_loop (countdownIterations size) value1 with
  | none => none
  | some buffer => some (buffer, size)

/-- What `main` does that can be observed: the calls of the two functions declared in
`hashcash1.h` and the lines written to standard output. -/
inductive Event
  | create (value : List Byte) (limit timeout : Int)
  | verify (key value : List Byte)
  | print (line : List Char)
deriving DecidableEq, Repr

/-- A run of `main`: the events in order and the exit code; `exitCode = none` when the run
does not reach a `return` of `main` (a read outside a buffer, or a call that does not
return). -/
structure Outcome where
  events : List Event
  exitCode : Option Int
deriving DecidableEq, Repr

/-- What `main` calls and is not defined in `main.cpp`: `atoi` of the C library and the two
functions declared in `hashcash1.h`, with the three-argument `hashcash1_Create`. They are
parameters of `main`: a buffer is passed as it is, and `none` stands for a call that does
not return. -/
structure Core where
  atoi : List Char → Int
  hashcash1_Create : List Byte → Int → Int → Option (List Byte)
  hashcash1_Verify : List Byte → List Byte → Option Int

/-- The branch `create` of `main`. -/
def main_create (core : Core) (argv : List (List Char)) : Outcome :=
  match argv[3]? with
  | none => ⟨[], none⟩
  | some a3 =>
    match fromHexString a3 with
    | none => ⟨[], none⟩
    | some (value, _valueSize) =>
      match argv[4]?, argv[5]? with
      | some a4, some a5 =>
        let limit := core.atoi a4
        let timeout := core.atoi a5
        match core.hashcash1_Create value limit timeout with
        | none => ⟨[Event.create value limit timeout], none⟩
        | some key =>
          match toHexString key 32 with
          | none => ⟨[Event.create value limit timeout], none⟩
          | some line => ⟨[Event.create value limit timeout, Event.print line], some 0⟩
      | _, _ => ⟨[], none⟩

/-- The branch `verify` of `main`. -/
def main_verify (core : Core) (argv : List (List Char)) : Outcome :=
  match argv[3]? with
  | none => ⟨[], none⟩
  | some a3 =>
    match fromHexString a3 with
    | none => ⟨[], none⟩
    | some (key, keySize) =>
      if keySize ≠ 32 then ⟨[], some 1⟩
      else
        match argv[4]? with
        | none => ⟨[], none⟩
        | some a4 =>
          match fromHexString a4 with
          | none => ⟨[], none⟩
          | some (value, valueSize) =>
            if valueSize ≠ 32 then ⟨[], some 1⟩
            else
              match core.hashcash1_Verify key value with
              | none => ⟨[Event.verify key value], none⟩
              | some count =>
                ⟨[Event.verify key value, Event.print (toString count).toList], some 0⟩

/-- Function `main(argc, argv)`. -/
def main (core : Core) (argv : List (List Char)) : Outcome :=
  match argv[1]? with
  | none => ⟨[], none⟩
  | some a1 =>
    if a1 = "hashcash1".toList then
      match argv[2]? with
      | none => ⟨[], none⟩
      | some a2 =>
        if a2 = "create".toList then main_create core argv
        else if a2 = "verify".toList then main_verify core argv
        else ⟨[], some 0⟩
    else ⟨[], some 0⟩

/-- A stand-in for `atoi` for running the definitions: the value of the leading decimal
digits. -/
def demoAtoi (s : List Char) : Int :=
  ((s.takeWhile Char.isDigit).foldl (fun acc c => acc * 10 + (c.toNat - '0'.toNat)) 0 : Nat)

/-- A stand-in for the two functions declared in `hashcash1.h`, for running `main` on
concrete command lines. It is not the code of the repository: `main.cpp` works on keys and
challenges of 32 bytes and calls a three-argument `hashcash1_Create` whose definition is not
among the sources, so every general statement about `main` is made for an arbitrary `Core`.
Here the search returns the first 32 bytes of the buffer it is given, padded with zeros,
and the verification returns the count 0. -/
def demoCore : Core where
  atoi := demoAtoi
  hashcash1_Create := fun value _limit _timeout =>
    some ((value ++ List.replicate 32 (0 : Byte)).take 32)
  hashcash1_Verify := fun _key _value => some 0

/-- The characters `[0-9a-fA-F]`. -/
def isHexDigit (c : Char) : Bool :=
  decide (('0' ≤ c ∧ c ≤ '9') ∨ ('a' ≤ c ∧ c ≤ 'f') ∨ ('A' ≤ c ∧ c ≤ 'F'))

/-- The challenge used to run the definitions: 64 bytes of value 1. -/
def demoChallenge : List Byte := List.replicate 64 1

/-- A command line: the program name followed by the given arguments. -/
def commandLine (args : List String) : List (List Char) :=
  "Hashcash".toList :: args.map String.toList

/-! ## Auxiliary definitions for the statements -/

/-- The generator is well formed: 64 words and an index into them. -/
def Xorshift.WF (x : Xorshift) : Prop := x.s.length = 64 ∧ x.p < 64

/-- Leading zero bits of one byte. -/
def lzByte (b : Byte) : Nat := ((byteBits b).takeWhile (fun t => !t)).length

/-- The two hexadecimal digits of each byte, in order. -/
def hexChars : List Byte → List Char
  | [] => []
  | b :: bs => getHexValue (b.val >>> 4) :: getHexValue (b.val &&& 0x0F) :: hexChars bs

/-- The character read in place of `c`: `c` itself when it is a hexadecimal digit, `'0'`
otherwise. -/
def zeroIfNotHex (c : Char) : Char := if isHexDigit c then c else '0'

/-- The generator after `k` calls of `next()`, the results discarded; `none` when one of the
calls reads outside the array. -/
def Xorshift.iterate : Nat → Xorshift → Option Xorshift
  | 0, x => some x
  | k + 1, x =>
    match x.next with
    | none => none
    | some (_, x1) => Xorshift.iterate k x1

/-- The results of `k` successive calls of `next()` and the generator after them. -/
def Xorshift.nextN : Nat → Xorshift → Option (List Nat × Xorshift)
  | 0, x => some ([], x)
  | k + 1, x =>
    match x.next with
    | none => none
    | some (w, x1) =>
      match Xorshift.nextN k x1 with
      | none => none
      | some (ws, x2) => some (w :: ws, x2)

/-- The word that `next()` stores, in the arithmetic of the specification: from the word
`s0` read at `p` and the word `s1` read at `p + 1`, with `s1 ^= s1 << 25` truncated to 64
bits, `s1 ^= s1 >> 3`, `s0 ^= s0 >> 49`, the word `s0 ^ s1`. A left shift is a multiplication
by a power of two, a right shift a division. -/
def xorshiftWord (s0 s1 : Nat) : Nat :=
  let s1a := s1 ^^^ (s1 * 2 ^ 25 % 2 ^ 64)
  let s1b := s1a ^^^ (s1a / 2 ^ 3)
  let s0c := s0 ^^^ (s0 / 2 ^ 49)
  s0c ^^^ s1b

/-- The bytes of a list of words in memory: for each word in turn the four bytes of its low
32 bits, least significant byte first. -/
def wordsBytes : List Nat → List Byte
  | [] => []
  | w :: ws => storeBytes32 w ++ wordsBytes ws

/-- The comparison of step 3 of the search as the specification words it, on indices `i`,
`i + 1`, ... with `n` indices left: at the first index where the two digests differ the
candidate replaces the incumbent when its byte is the smaller one, as unsigned values, and
is discarded when its byte is the greater one; it is discarded when no index differs. -/
def replacesUnsigned (bestDigest candidateDigest : List Byte) : Nat → Nat → Bool
  | 0, _ => false
  | n + 1, i =>
    if (candidateDigest.getD i 0).val < (bestDigest.getD i 0).val then true
    else if (bestDigest.getD i 0).val < (candidateDigest.getD i 0).val then false
    else replacesUnsigned bestDigest candidateDigest n (i + 1)

/-- A byte string read as a big-endian unsigned integer: byte 0 is the most significant. -/
def beValue : List Byte → Nat
  | [] => 0
  | b :: bs => b.val * 256 ^ bs.length + beValue bs

/-- The sixteen lower-case hexadecimal digits, in the order of their values. -/
def lowerHexDigits : List Char := "0123456789abcdef".toList

/-- The value of a hexadecimal digit in either case as the specification words it: the
position of its lower-case form among the sixteen lower-case digits. -/
def hexDigitSpec (c : Char) : Nat := lowerHexDigits.indexOf c.toLower

/-- Reading a string two digits per byte, the most significant nibble first. -/
def readHexPairs : List Char → List Byte
  | c1 :: c2 :: rest => toByte (16 * hexDigitSpec c1 + hexDigitSpec c2) :: readHexPairs rest
  | _ => []

/-- The decoding of a hexadecimal string as the specification words it: the string is
padded on the left with one `0` when its length is odd, then read two digits per byte. -/
def decodeHexSpec (s : List Char) : List Byte :=
  readHexPairs (if s.length % 2 = 1 then '0' :: s else s)

/-! ## Lemmas and theorems -/

theorem storeU32_length (buf : List Byte) (i w : Nat) (hb : buf.length = 128) (hi : i < 16) :
    (storeU32 buf i w).length = 128 := by
  simp [storeU32, storeBytes32, hb]
  omega

theorem storeU32_drop (buf : List Byte) (i w : Nat) (hb : buf.length = 128) (hi : i < 16) :
    (storeU32 buf i w).drop 64 = buf.drop 64 := by
  unfold storeU32
  have h1 : (buf.take (4 * i) ++ storeBytes32 w).length = 4 * i + 4 := by
    simp [storeBytes32, hb]; omega
  have h2 : 64 = (buf.take (4 * i) ++ storeBytes32 w).length + (64 - (4 * i + 4)) := by
    rw [h1]; omega
  conv_lhs => rw [h2]
  rw [List.drop_append, List.drop_drop]
  congr 1
  omega

theorem fillSlots_spec : ∀ (k i : Nat) (x x1 : Xorshift) (buf buf1 : List Byte),
    i + k ≤ 16 → buf.length = 128 → fillSlots k i x buf = some (buf1, x1) →
    buf1.length = 128 ∧ buf1.drop 64 = buf.drop 64
  | 0, i, x, x1, buf, buf1, _, hb, h => by
    simp [fillSlots] at h
    obtain ⟨rfl, _⟩ := h
    exact ⟨hb, rfl⟩
  | k + 1, i, x, x1, buf, buf1, hk, hb, h => by
    simp only [fillSlots] at h
    cases hn : x.next with
    | none => simp [hn] at h
    | some r =>
      obtain ⟨w, x2⟩ := r
      simp only [hn] at h
      have hi : i < 16 := by omega
      have := fillSlots_spec k (i + 1) x2 x1 _ buf1 (by omega) (storeU32_length buf i w hb hi) h
      exact ⟨this.1, this.2.trans (storeU32_drop buf i w hb hi)⟩

theorem digestLT_irrefl : ∀ d : List Byte, ¬ digestLT d d
  | [] => by simp [digestLT]
  | a :: as => by
    simp only [digestLT, lt_self_iff_false, true_and, false_or]
    exact digestLT_irrefl as

theorem digestLT_trans : ∀ d e f : List Byte, digestLT d e → digestLT e f → digestLT d f
  | _, [], _, h, _ => by cases ‹List Byte› <;> simp [digestLT] at h
  | _, _ :: _, [], _, h => by simp [digestLT] at h
  | [], _ :: _, _ :: _, _, _ => by simp [digestLT]
  | a :: as, b :: bs, c :: cs, h1, h2 => by
    simp only [digestLT] at h1 h2 ⊢
    rcases h1 with h1 | ⟨rfl, h1⟩
    · rcases h2 with h2 | ⟨rfl, _⟩
      · exact Or.inl (lt_trans h1 h2)
      · exact Or.inl h1
    · rcases h2 with h2 | ⟨rfl, h2⟩
      · exact Or.inl h2
      · exact Or.inr ⟨rfl, digestLT_trans as bs cs h1 h2⟩

theorem digestLE_refl (d : List Byte) : digestLE d d := Or.inr rfl

theorem digestLT_of_LT_of_LE {d e f : List Byte} (h1 : digestLT d e) (h2 : digestLE e f) :
    digestLT d f := by
  rcases h2 with h2 | rfl
  · exact digestLT_trans _ _ _ h1 h2
  · exact h1

theorem digestLE_of_not_LT : ∀ d e : List Byte, d.length = e.length → ¬ digestLT d e →
    digestLE e d
  | [], [], _, _ => Or.inr rfl
  | [], y :: ys, hlen, _ => absurd hlen (by simp)
  | x :: xs, [], hlen, _ => absurd hlen (by simp)
  | a :: as, b :: bs, h, hn => by
    simp only [digestLT, not_or, not_and] at hn
    simp only [List.length_cons, add_left_inj] at h
    rcases lt_trichotomy a.val b.val with hab | hab | hab
    · exact absurd hab hn.1
    · have hab : a = b := Fin.ext hab
      subst hab
      rcases digestLE_of_not_LT as bs h (hn.2 rfl) with h3 | h3
      · exact Or.inl (Or.inr ⟨rfl, h3⟩)
      · exact Or.inr (by rw [h3])
    · exact Or.inl (Or.inl hab)

theorem replaces_iff : ∀ (n i : Nat) (fr cr : List Byte), fr.length = i + n →
    cr.length = i + n → (replaces fr cr n i = true ↔ digestLT (cr.drop i) (fr.drop i))
  | 0, i, fr, cr, hf, hc => by
    have h1 : fr.drop i = [] := List.drop_eq_nil_of_le (by omega)
    have h2 : cr.drop i = [] := List.drop_eq_nil_of_le (by omega)
    simp [replaces, h1, h2, digestLT]
  | n + 1, i, fr, cr, hf, hc => by
    have hif : i < fr.length := by omega
    have hic : i < cr.length := by omega
    have h1 : fr.drop i = fr[i] :: fr.drop (i + 1) := List.drop_eq_getElem_cons hif
    have h2 : cr.drop i = cr[i] :: cr.drop (i + 1) := List.drop_eq_getElem_cons hic
    have g1 : fr.getD i 0 = fr[i] := by simp [List.getD, List.getElem?_eq_getElem hif]
    have g2 : cr.getD i 0 = cr[i] := by simp [List.getD, List.getElem?_eq_getElem hic]
    have ih := replaces_iff n (i + 1) fr cr (by omega) (by omega)
    rw [h1, h2]
    simp only [replaces, g1, g2, digestLT]
    by_cases hlt : ((fr[i]).val : Int) - ((cr[i]).val : Int) < 0
    · simp only [hlt, if_true]
      constructor
      · intro h; cases h
      · rintro (h | ⟨h, _⟩)
        · omega
        · rw [h] at hlt; omega
    · simp only [hlt, if_false]
      by_cases heq : ((fr[i]).val : Int) - ((cr[i]).val : Int) = 0
      · simp only [heq, if_true]
        have he : cr[i] = fr[i] := Fin.ext (by omega)
        rw [ih]
        constructor
        · intro h; exact Or.inr ⟨he, h⟩
        · rintro (h | ⟨_, h⟩)
          · omega
          · exact h
      · simp only [heq, if_false, true_iff]
        left; omega

theorem init_inv (H : Hash) (entropy : Nat → Nat) (value : List Byte) (st : SearchState)
    (h : hashcash1_Create_init H entropy value = some st) :
    SearchInv H (value.take 64) st ∧ st.hashed = [st.currentState] ∧
      st.finalState = st.currentState := by
  unfold hashcash1_Create_init at h
  split at h
  · cases h
  · rename_i hv
    dsimp only at h
    split at h
    · cases h
    · rename_i cs x hfill
      have hlen : (List.replicate 64 (0 : Byte) ++ value.take 64).length = 128 := by
        simp; omega
      obtain ⟨h1, h2⟩ := fillSlots_spec 16 0 _ x _ cs (by omega) hlen hfill
      have h3 : cs.drop 64 = value.take 64 := by
        rw [h2]
        have : 64 = (List.replicate 64 (0 : Byte)).length := by simp
        conv_lhs => rw [this]
        exact List.drop_left _ _
      simp only [Option.some.injEq] at h
      subst h
      refine ⟨⟨h1, h3, ?_, rfl, [], [], rfl, ?_, ?_⟩, rfl, rfl⟩
      · intro m hm
        simp only [List.mem_singleton] at hm
        subst hm
        exact ⟨h1, h3⟩
      · intro m hm; cases hm
      · intro m hm; cases hm

theorem step_hashed (H : Hash) (st st1 : SearchState)
    (h : hashcash1_Create_step H st = some st1) :
    st1.hashed = st.hashed ++ [st1.currentState] ∧
      st1.currentResult = H.digest st1.currentState ∧
      ((st1.finalState = st.finalState ∧ st1.finalResult = st.finalResult) ∨
       (st1.finalState = st1.currentState ∧ st1.finalResult = st1.currentResult)) ∧
      (replaces st.finalResult st1.currentResult 64 0 = true →
        st1.finalState = st1.currentState ∧ st1.finalResult = st1.currentResult) ∧
      (replaces st.finalResult st1.currentResult 64 0 = false →
        st1.finalState = st.finalState ∧ st1.finalResult = st.finalResult) := by
  unfold hashcash1_Create_step at h
  split at h
  · cases h
  · rename_i cs x hfill
    dsimp only at h
    split at h
    · rename_i hr
      simp only [Option.some.injEq] at h
      subst h
      simp [hr]
    · rename_i hr
      simp only [Option.some.injEq] at h
      subst h
      simp [hr]

theorem step_inv (H : Hash) (challenge : List Byte) (st st1 : SearchState)
    (hinv : SearchInv H challenge st) (h : hashcash1_Create_step H st = some st1) :
    SearchInv H challenge st1 := by
  obtain ⟨hh, hcr, _, hrep, hkeep⟩ := step_hashed H st st1 h
  have hcur : st1.currentState.length = 128 ∧ st1.currentState.drop 64 = challenge := by
    unfold hashcash1_Create_step at h
    split at h
    · cases h
    · rename_i cs x hfill
      obtain ⟨h1, h2⟩ := fillSlots_spec 16 0 _ x _ cs (by omega) hinv.cur_len hfill
      have hcs : st1.currentState = cs := by
        dsimp only at h
        split at h <;> (simp only [Option.some.injEq] at h; subst h; rfl)
      rw [hcs]
      exact ⟨h1, h2.trans hinv.cur_chal⟩
  have hwf : ∀ m ∈ st1.hashed, m.length = 128 ∧ m.drop 64 = challenge := by
    intro m hm
    rw [hh, List.mem_append, List.mem_singleton] at hm
    rcases hm with hm | rfl
    · exact hinv.hashed_wf m hm
    · exact hcur
  obtain ⟨pre, post, hsplit, hpre, hpost⟩ := hinv.first_min
  have hfl : st.finalResult.length = 64 := by rw [hinv.result]; exact H.size _
  have hcl : st1.currentResult.length = 64 := by rw [hcr]; exact H.size _
  cases hr : replaces st.finalResult st1.currentResult 64 0 with
  | true =>
    obtain ⟨hfs, hfr⟩ := hrep hr
    have hlt : digestLT st1.currentResult st.finalResult := by
      have := (replaces_iff 64 0 st.finalResult st1.currentResult (by omega) (by omega)).mp hr
      simpa using this
    refine ⟨hcur.1, hcur.2, hwf, by rw [hfr, hfs, hcr], st.hashed, [], ?_, ?_, ?_⟩
    · rw [hh, hfs]
    · intro m hm
      rw [hfr]
      rw [hsplit, List.mem_append, List.mem_cons] at hm
      rcases hm with hm | rfl | hm
      · exact digestLT_trans _ _ _ hlt (hpre m hm)
      · rw [← hinv.result]; exact hlt
      · exact digestLT_of_LT_of_LE hlt (hpost m hm)
    · intro m hm; cases hm
  | false =>
    obtain ⟨hfs, hfr⟩ := hkeep hr
    have hnlt : ¬ digestLT st1.currentResult st.finalResult := by
      intro hlt
      have := (replaces_iff 64 0 st.finalResult st1.currentResult (by omega) (by omega)).mpr
        (by simpa using hlt)
      rw [hr] at this
      cases this
    have hle : digestLE st.finalResult st1.currentResult :=
      digestLE_of_not_LT _ _ (by omega) hnlt
    refine ⟨hcur.1, hcur.2, hwf, by rw [hfr, hfs]; exact hinv.result, pre,
      post ++ [st1.currentState], ?_, ?_, ?_⟩
    · rw [hh, hsplit, hfs]; simp
    · intro m hm; rw [hfr]; exact hpre m hm
    · intro m hm
      rw [hfr]
      rw [List.mem_append, List.mem_singleton] at hm
      rcases hm with hm | rfl
      · exact hpost m hm
      · rw [← hcr]; exact hle

theorem reachable_inv (H : Hash) (entropy : Nat → Nat) (value : List Byte) (st : SearchState)
    (h : Reachable H entropy value st) : SearchInv H (value.take 64) st := by
  induction h with
  | init h0 => exact (init_inv H entropy value _ h0).1
  | step _ hs ih => exact step_inv H _ _ _ ih hs

theorem loop_reachable (H : Hash) (entropy : Nat → Nat) (value : List Byte)
    (cps c0 timeout : Int) : ∀ (readings : List Int) (st st1 : SearchState),
    Reachable H entropy value st →
    hashcash1_Create_loop H cps c0 timeout readings st = some st1 →
    Reachable H entropy value st1
  | [], _, _, _, h => by simp [hashcash1_Create_loop] at h
  | clockEnd :: readings, st, st1, hr, h => by
    simp only [hashcash1_Create_loop] at h
    split at h
    · cases h
    · rename_i st2 hs
      have hr2 := Reachable.step hr hs
      split at h
      · simp only [Option.some.injEq] at h
        subst h
        exact hr2
      · exact loop_reachable H entropy value cps c0 timeout readings st2 st1 hr2 h

theorem run_reachable (H : Hash) (entropy : Nat → Nat) (cps c0 : Int) (readings : List Int)
    (value : List Byte) (timeout : Int) (st : SearchState)
    (h : hashcash1_Create_run H entropy cps c0 readings value timeout = some st) :
    Reachable H entropy value st := by
  unfold hashcash1_Create_run at h
  split at h
  · cases h
  · rename_i st0 h0
    exact loop_reachable H entropy value cps c0 timeout readings st0 st (Reachable.init h0) h

theorem scanByte_count (b : Byte) : ∀ (n j : Nat) (c : Int),
    scanByte b n j c = ((scanByte b n j 0).1 + c, (scanByte b n j 0).2)
  | 0, j, c => by simp [scanByte]
  | n + 1, j, c => by
    simp only [scanByte]
    split
    · rw [scanByte_count b n (j + 1) (c + 1), scanByte_count b n (j + 1) (0 + 1)]
      simp only [Prod.mk.injEq, and_true]
      omega
    · simp

theorem scanByte_eq : ∀ b : Byte, scanByte b 8 0 0 = ((lzByte b : Int), decide (lzByte b < 8)) := by
  decide

theorem lzByte_le : ∀ b : Byte, lzByte b ≤ 8 := by decide

theorem lzByte_iff : ∀ b : Byte, ∀ k : Fin 9, (k.val ≤ lzByte b ↔ b.val < 2 ^ (8 - k.val)) := by
  decide

theorem takeWhile_append_length {α : Type} (p : α → Bool) : ∀ (l1 l2 : List α),
    ((l1 ++ l2).takeWhile p).length =
      if (l1.takeWhile p).length < l1.length then (l1.takeWhile p).length
      else l1.length + (l2.takeWhile p).length
  | [], l2 => by simp
  | a :: l1, l2 => by
    have ih := takeWhile_append_length p l1 l2
    by_cases hp : p a = true
    · rw [List.cons_append, List.takeWhile_cons_of_pos hp, List.takeWhile_cons_of_pos hp]
      simp only [List.length_cons, ih, add_lt_add_iff_right]
      split <;> omega
    · rw [List.cons_append, List.takeWhile_cons_of_neg hp, List.takeWhile_cons_of_neg hp]
      simp

theorem byteBits_length (b : Byte) : (byteBits b).length = 8 := rfl

theorem leadingZeroBits_cons (a : Byte) (as : List Byte) :
    leadingZeroBits (a :: as) = if lzByte a < 8 then lzByte a else 8 + leadingZeroBits as := by
  simp only [leadingZeroBits, digestBits, takeWhile_append_length, byteBits_length, lzByte]

theorem leadingZeroBits_nil : leadingZeroBits [] = 0 := rfl

theorem scanDigest_eq : ∀ (n i : Nat) (d : List Byte) (c : Int), d.length = i + n →
    scanDigest d n i c = c + (leadingZeroBits (d.drop i) : Int)
  | 0, i, d, c, h => by
    have h1 : d.drop i = [] := List.drop_eq_nil_of_le (by omega)
    simp [scanDigest, h1, leadingZeroBits_nil]
  | n + 1, i, d, c, h => by
    have hi : i < d.length := by omega
    have h1 : d.drop i = d[i] :: d.drop (i + 1) := List.drop_eq_getElem_cons hi
    have g1 : d.getD i 0 = d[i] := by simp [List.getD, List.getElem?_eq_getElem hi]
    have hb := scanByte_count d[i] 8 0 c
    rw [scanByte_eq] at hb
    simp only [scanDigest, g1]
    rw [h1, leadingZeroBits_cons]
    by_cases hz : lzByte d[i] < 8
    · simp only [hz, decide_True] at hb
      rw [hb]
      simp only [hz, if_true]
      omega
    · simp only [hz, decide_False] at hb
      rw [hb]
      simp only [hz, if_false]
      rw [scanDigest_eq n (i + 1) d _ (by omega)]
      have := lzByte_le d[i]
      have h8 : lzByte d[i] = 8 := by omega
      rw [h8]
      push_cast
      omega

theorem verify_eq (H : Hash) (entropy : Nat → Nat) (key value : List Byte)
    (hk : key.length = 64) (hv : value.length = 64) :
    hashcash1_Verify H entropy key value =
      some ((leadingZeroBits (H.digest (key ++ value)) : Nat) : Int) := by
  unfold hashcash1_Verify
  have h1 : ¬ key.length < 64 := by omega
  have h2 : ¬ value.length < 64 := by omega
  have hk1 : key.take 64 = key := List.take_of_length_le (by omega)
  have hv1 : value.take 64 = value := List.take_of_length_le (by omega)
  simp only [h1, h2, if_false, hk1, hv1]
  rw [scanDigest_eq 64 0 _ 0 (by rw [H.size])]
  simp

theorem Xorshift.create_wf (entropy : Nat → Nat) : (Xorshift.create entropy).WF := by
  simp [Xorshift.create, Xorshift.WF]

theorem Xorshift.next_wf (x : Xorshift) (h : x.WF) :
    ∃ w x1, x.next = some (w, x1) ∧ x1.WF := by
  obtain ⟨hs, hp⟩ := h
  have h63 : (x.p + 1) &&& 63 ≤ 63 := Nat.and_le_right
  have hp0 : x.p < x.s.length := by omega
  have hp1 : (x.p + 1) &&& 63 < x.s.length := by omega
  have h0 : x.s[x.p]? = some (x.s[x.p]) := List.getElem?_eq_getElem hp0
  have h1 : x.s[(x.p + 1) &&& 63]? = some (x.s[(x.p + 1) &&& 63]) :=
    List.getElem?_eq_getElem hp1
  unfold Xorshift.next
  rw [h0]
  dsimp only
  rw [h1]
  refine ⟨_, _, rfl, ?_, ?_⟩
  · simp [hs]
  · dsimp only; omega

theorem fillSlots_wf : ∀ (k i : Nat) (x : Xorshift) (buf : List Byte), x.WF →
    ∃ buf1 x1, fillSlots k i x buf = some (buf1, x1) ∧ x1.WF
  | 0, _, x, buf, h => ⟨buf, x, rfl, h⟩
  | k + 1, i, x, buf, h => by
    obtain ⟨w, x1, hn, hw⟩ := Xorshift.next_wf x h
    obtain ⟨buf1, x2, hf, hw2⟩ := fillSlots_wf k (i + 1) x1 (storeU32 buf i w) hw
    exact ⟨buf1, x2, by simp only [fillSlots, hn, hf], hw2⟩

theorem init_total (H : Hash) (entropy : Nat → Nat) (value : List Byte)
    (hv : 64 ≤ value.length) :
    ∃ st0, hashcash1_Create_init H entropy value = some st0 ∧ st0.xorshift.WF := by
  obtain ⟨buf1, x1, hf, hw⟩ := fillSlots_wf 16 0 (Xorshift.create entropy)
    (List.replicate 64 (0 : Byte) ++ value.take 64) (Xorshift.create_wf entropy)
  have h1 : ¬ value.length < 64 := by omega
  unfold hashcash1_Create_init
  simp only [h1, if_false, hf]
  exact ⟨_, rfl, hw⟩

theorem step_total (H : Hash) (st : SearchState) (hw : st.xorshift.WF) :
    ∃ st1, hashcash1_Create_step H st = some st1 ∧ st1.xorshift.WF := by
  obtain ⟨buf1, x1, hf, hw1⟩ := fillSlots_wf 16 0 st.xorshift st.currentState hw
  unfold hashcash1_Create_step
  simp only [hf]
  split
  · exact ⟨_, rfl, hw1⟩
  · exact ⟨_, rfl, hw1⟩

theorem loop_total (H : Hash) (cps c0 timeout : Int) : ∀ (readings : List Int)
    (st : SearchState), st.xorshift.WF →
    (∃ r ∈ readings, (r - c0).tdiv cps > timeout) →
    ∃ st1, hashcash1_Create_loop H cps c0 timeout readings st = some st1
  | [], _, _, h => by simp at h
  | clockEnd :: readings, st, hw, h => by
    obtain ⟨st1, hs, hw1⟩ := step_total H st hw
    simp only [hashcash1_Create_loop, hs]
    by_cases hc : (clockEnd - c0).tdiv cps > timeout
    · exact ⟨st1, by simp only [hc, if_true]⟩
    · simp only [hc, if_false]
      apply loop_total H cps c0 timeout readings st1 hw1
      obtain ⟨r, hr, hgt⟩ := h
      rcases List.mem_cons.mp hr with rfl | hr
      · exact absurd hgt hc
      · exact ⟨r, hr, hgt⟩

theorem run_total (H : Hash) (entropy : Nat → Nat) (cps c0 : Int) (readings : List Int)
    (value : List Byte) (timeout : Int) (hv : 64 ≤ value.length)
    (h : ∃ r ∈ readings, (r - c0).tdiv cps > timeout) :
    ∃ st, hashcash1_Create_run H entropy cps c0 readings value timeout = some st := by
  obtain ⟨st0, h0, hw⟩ := init_total H entropy value hv
  obtain ⟨st1, h1⟩ := loop_total H cps c0 timeout readings st0 hw h
  exact ⟨st1, by simp only [hashcash1_Create_run, h0, h1]⟩

theorem loop_hashed (H : Hash) (cps c0 timeout : Int) : ∀ (readings : List Int)
    (st st1 : SearchState), hashcash1_Create_loop H cps c0 timeout readings st = some st1 →
    ∃ more, more ≠ [] ∧ more.length ≤ readings.length ∧ st1.hashed = st.hashed ++ more
  | [], _, _, h => by simp [hashcash1_Create_loop] at h
  | clockEnd :: readings, st, st1, h => by
    simp only [hashcash1_Create_loop] at h
    split at h
    · cases h
    · rename_i st2 hs
      have hh := (step_hashed H st st2 hs).1
      split at h
      · simp only [Option.some.injEq] at h
        subst h
        exact ⟨[st2.currentState], by simp, by simp, hh⟩
      · obtain ⟨more, _, hlen, hm⟩ := loop_hashed H cps c0 timeout readings st2 st1 h
        refine ⟨st2.currentState :: more, by simp, by simpa using hlen, ?_⟩
        rw [hm, hh]
        simp

theorem run_hashed (H : Hash) (entropy : Nat → Nat) (cps c0 : Int) (readings : List Int)
    (value : List Byte) (timeout : Int) (st : SearchState)
    (h : hashcash1_Create_run H entropy cps c0 readings value timeout = some st) :
    ∃ st0 more, hashcash1_Create_init H entropy value = some st0 ∧ more ≠ [] ∧
      more.length ≤ readings.length ∧ st.hashed = st0.currentState :: more := by
  unfold hashcash1_Create_run at h
  split at h
  · cases h
  · rename_i st0 h0
    obtain ⟨more, hne, hlen, hm⟩ := loop_hashed H cps c0 timeout readings st0 st h
    refine ⟨st0, more, h0, hne, hlen, ?_⟩
    rw [hm, (init_inv H entropy value st0 h0).2.1]
    rfl

theorem create_eq (H : Hash) (entropy : Nat → Nat) (cps c0 : Int) (readings : List Int)
    (value : List Byte) (timeout : Int) (st : SearchState)
    (h : hashcash1_Create_run H entropy cps c0 readings value timeout = some st) :
    hashcash1_Create H entropy cps c0 readings value timeout = some (st.finalState.take 64) := by
  simp only [hashcash1_Create, h]

theorem final_split (H : Hash) (value : List Byte) (st : SearchState)
    (hv : value.length = 64) (hinv : SearchInv H (value.take 64) st) :
    st.finalState.take 64 ++ value = st.finalState ∧ (st.finalState.take 64).length = 64 ∧
      ∀ m ∈ st.hashed, m.take 64 ++ value = m := by
  have hv1 : value.take 64 = value := List.take_of_length_le (by omega)
  obtain ⟨pre, post, hsplit, _, _⟩ := hinv.first_min
  have hmem : st.finalState ∈ st.hashed := by rw [hsplit]; simp
  have hall : ∀ m ∈ st.hashed, m.take 64 ++ value = m := by
    intro m hm
    obtain ⟨_, h2⟩ := hinv.hashed_wf m hm
    rw [hv1] at h2
    conv_lhs => rw [← h2]
    exact List.take_append_drop 64 m
  refine ⟨hall _ hmem, ?_, hall⟩
  have := (hinv.hashed_wf _ hmem).1
  simp [this]

/-- C4: in every state reached at the end of the initialisation or of a loop iteration of
`hashcash1_Create` on a 64-byte challenge `value`, `finalState` is one of the buffers hashed
so far (so its first 64 bytes are a generated prefix), its bytes 64..127 are the challenge,
and `finalResult` is the digest of `finalState`; hence a returned key is the prefix of a
buffer that was hashed. -/
theorem create_no_fabricated_result (H : Hash) (entropy : Nat → Nat) (value : List Byte)
    (hv : value.length = 64) :
    (∀ st, Reachable H entropy value st →
        st.finalState ∈ st.hashed ∧ st.finalState.length = 128 ∧
        st.finalState.drop 64 = value ∧ st.finalResult = H.digest st.finalState) ∧
      ∀ (clocksPerSec clockStart : Int) (readings : List Int) (timeout : Int)
        (key : List Byte),
        hashcash1_Create H entropy clocksPerSec clockStart readings value timeout = some key →
        ∃ st, hashcash1_Create_run H entropy clocksPerSec clockStart readings value timeout
            = some st ∧ Reachable H entropy value st ∧
          ∃ m ∈ st.hashed, key = m.take 64 := by
  have hv1 : value.take 64 = value := List.take_of_length_le (by omega)
  have main : ∀ st, Reachable H entropy value st →
      st.finalState ∈ st.hashed ∧ st.finalState.length = 128 ∧
      st.finalState.drop 64 = value ∧ st.finalResult = H.digest st.finalState := by
    intro st hr
    have hinv := reachable_inv H entropy value st hr
    obtain ⟨pre, post, hsplit, _, _⟩ := hinv.first_min
    have hmem : st.finalState ∈ st.hashed := by rw [hsplit]; simp
    obtain ⟨h1, h2⟩ := hinv.hashed_wf _ hmem
    rw [hv1] at h2
    exact ⟨hmem, h1, h2, hinv.result⟩
  refine ⟨main, ?_⟩
  intro cps c0 readings timeout key hkey
  cases hrun : hashcash1_Create_run H entropy cps c0 readings value timeout with
  | none => simp [hashcash1_Create, hrun] at hkey
  | some st =>
    rw [create_eq H entropy _ _ _ _ _ st hrun] at hkey
    simp only [Option.some.injEq] at hkey
    have hr := run_reachable H entropy _ _ _ _ _ st hrun
    exact ⟨st, rfl, hr, st.finalState, (main st hr).1, hkey.symm⟩

/-- Witness for C4: the key of the demonstration run is the prefix of a hashed buffer. -/
theorem create_no_fabricated_result_witness :
    demoChallenge.length = 64 ∧
      ∀ key, hashcash1_Create demoHash demoEntropy 1000 0 [0, 500, 2500] demoChallenge 1
          = some key →
        ∃ st, hashcash1_Create_run demoHash demoEntropy 1000 0 [0, 500, 2500]
            demoChallenge 1 = some st ∧ Reachable demoHash demoEntropy demoChallenge st ∧
          ∃ m ∈ st.hashed, key = m.take 64 :=
  ⟨by decide, fun key hkey =>
    (create_no_fabricated_result demoHash demoEntropy demoChallenge (by decide)).2
      1000 0 [0, 500, 2500] 1 key hkey⟩

theorem leadingZeroBits_zero : leadingZeroBits (List.replicate 64 (0 : Byte)) = 512 := by
  decide

/-- C5: for a 64-byte key and a 64-byte challenge, `hashcash1_Verify` returns
`leadingZeroBits` of the digest of `key ++ value`, the number of zero bits in front of the
first one bit scanning byte 0 first and each byte from its most significant bit; the count is
512 for the all-zero digest. -/
theorem verify_leadingZeroBits (H : Hash) (entropy : Nat → Nat) (key value : List Byte)
    (hk : key.length = 64) (hv : value.length = 64) :
    hashcash1_Verify H entropy key value =
        some ((leadingZeroBits (H.digest (key ++ value)) : Nat) : Int) ∧
      leadingZeroBits (List.replicate 64 (0 : Byte)) = 512 :=
  ⟨verify_eq H entropy key value hk hv, leadingZeroBits_zero⟩

/-- Witness for C5: the score of the all-one key against the demonstration challenge. -/
theorem verify_leadingZeroBits_witness :
    demoChallenge.length = 64 ∧
      hashcash1_Verify demoHash demoEntropy demoChallenge demoChallenge =
        some ((leadingZeroBits (demoHash.digest (demoChallenge ++ demoChallenge)) : Nat)
          : Int) :=
  ⟨by decide, (verify_leadingZeroBits demoHash demoEntropy demoChallenge demoChallenge
    (by decide) (by decide)).1⟩

/-- Counterexample to C6: with timeout 0, a clock of 1000 ticks per second and the first
end-of-iteration reading one second after the start, two candidates are hashed and the key
returned is not the prefix generated before the loop. -/
theorem create_zero_timeout_counterexample :
    (hashcash1_Create_run demoHash demoEntropy 1000 0 [1000] demoChallenge 0).map
        (fun st => st.hashed.length) = some 2 ∧
      (hashcash1_Create demoHash demoEntropy 1000 0 [1000] demoChallenge 0).isSome = true ∧
      hashcash1_Create demoHash demoEntropy 1000 0 [1000] demoChallenge 0 ≠
        (hashcash1_Create_init demoHash demoEntropy demoChallenge).map
          (fun st0 => st0.currentState.take 64) := by
  decide

/-- C6 as amended: on a 64-byte challenge with timeout 0, `hashcash1_Create` returns as soon
as an end-of-iteration clock reading lies a whole second or more after the start; and when
it returns, the key has 64 bytes and is the prefix of one of the hashed buffers, of which
there are at least two: the candidate generated before the loop and one per iteration of
the loop, whose body runs at least once. -/
theorem create_zero_timeout (H : Hash) (entropy : Nat → Nat) (clocksPerSec clockStart : Int)
    (readings : List Int) (value : List Byte) (hv : value.length = 64) :
    ((∃ r ∈ readings, (r - clockStart).tdiv clocksPerSec > 0) →
        ∃ key, hashcash1_Create H entropy clocksPerSec clockStart readings value 0
          = some key) ∧
      ∀ st key,
        hashcash1_Create_run H entropy clocksPerSec clockStart readings value 0 = some st →
        hashcash1_Create H entropy clocksPerSec clockStart readings value 0 = some key →
        key.length = 64 ∧ (∃ m ∈ st.hashed, m.take 64 = key) ∧
          ∃ st0 more, hashcash1_Create_init H entropy value = some st0 ∧
            st.hashed = st0.currentState :: more ∧ 1 ≤ more.length ∧
            more.length ≤ readings.length := by
  constructor
  · intro h
    obtain ⟨st, hst⟩ := run_total H entropy clocksPerSec clockStart readings value 0
      (by omega) h
    exact ⟨_, create_eq H entropy _ _ _ _ _ st hst⟩
  · intro st key hrun hkey
    have hinv := reachable_inv H entropy value st (run_reachable H entropy _ _ _ _ _ st hrun)
    rw [create_eq H entropy _ _ _ _ _ st hrun] at hkey
    simp only [Option.some.injEq] at hkey
    subst hkey
    obtain ⟨_, hlen, _⟩ := final_split H value st hv hinv
    obtain ⟨pre, post, hsplit, _, _⟩ := hinv.first_min
    obtain ⟨st0, more, h0, hne, hle, hm⟩ := run_hashed H entropy _ _ _ _ _ st hrun
    refine ⟨hlen, ⟨st.finalState, by rw [hsplit]; simp, rfl⟩, st0, more, h0, hm, ?_, hle⟩
    cases more with
    | nil => exact absurd rfl hne
    | cons a l => simp

/-- Witness for C6 as amended: the run of the counterexample returns a key. -/
theorem create_zero_timeout_witness :
    demoChallenge.length = 64 ∧
      ∃ key, hashcash1_Create demoHash demoEntropy 1000 0 [1000] demoChallenge 0
        = some key :=
  ⟨by decide, (create_zero_timeout demoHash demoEntropy 1000 0 [1000] demoChallenge
    (by decide)).1 ⟨1000, by simp, by decide⟩⟩

theorem countdownIterations_eq : ∀ n : Nat, n ≤ 2 ^ 31 → countdownIterations n = n
  | 0, _ => by decide
  | k + 1, h => by
    simp only [countdownIterations, toInt32]
    norm_num at h ⊢
    split <;> omega

theorem countdownIterations_le : ∀ n : Nat, countdownIterations n ≤ n
  | 0 => by decide
  | k + 1 => by
    simp only [countdownIterations, toInt32]
    norm_num
    split <;> omega

theorem hexChars_length : ∀ b : List Byte, (hexChars b).length = 2 * b.length
  | [] => rfl
  | _ :: bs => by simp [hexChars, hexChars_length bs]; omega

theorem toHexString_loop_eq : ∀ (n : Nat) (b : List Byte), n ≤ b.length →
    toHexString_loop n b = some (hexChars (b.take n))
  | 0, b, _ => by simp [toHexString_loop, hexChars]
  | n + 1, [], h => by simp at h
  | n + 1, x :: bs, h => by
    have := toHexString_loop_eq n bs (by simpa using h)
    simp [toHexString_loop, this, hexChars]

theorem hexDigit_round_trip : ∀ b : Byte,
    toByte ((hexDigitValue (getHexValue (b.val >>> 4)) <<< 4) |||
      hexDigitValue (getHexValue (b.val &&& 0x0F))) = b := by
  decide

theorem getHexValue_ne_nul : ∀ b : Byte,
    (getHexValue (b.val >>> 4) != Char.ofNat 0) = true ∧
      (getHexValue (b.val &&& 0x0F) != Char.ofNat 0) = true := by
  decide

theorem cString_hexChars : ∀ b : List Byte, cString (hexChars b) = hexChars b
  | [] => rfl
  | x :: bs => by
    have ih := cString_hexChars bs
    obtain ⟨h1, h2⟩ := getHexValue_ne_nul x
    unfold cString at ih ⊢
    simp only [hexChars, List.takeWhile_cons, h1, h2, if_true, ih]

theorem fromHexString_loop_hexChars : ∀ b : List Byte,
    fromHexString_loop b.length (hexChars b) = some b
  | [] => rfl
  | x :: bs => by
    simp only [List.length_cons, hexChars, fromHexString_loop,
      fromHexString_loop_hexChars bs, hexDigit_round_trip]

theorem toHexString_eq (value : List Byte) (length : Nat) (h1 : length ≤ 2 ^ 31)
    (h2 : length ≤ value.length) :
    toHexString value length = some (hexChars (value.take length)) := by
  unfold toHexString
  rw [countdownIterations_eq length h1, toHexString_loop_eq length value h2]
  simp only [cString_hexChars]

theorem fromHexString_hexChars (b : List Byte) (h : b.length ≤ 2 ^ 31) :
    fromHexString (hexChars b) = some (b, b.length) := by
  unfold fromHexString
  have hl := hexChars_length b
  have h0 : ¬ (hexChars b).length % 2 ≠ 0 := by rw [hl]; omega
  simp only [h0, if_false]
  have h2 : (hexChars b).length / 2 = b.length := by rw [hl]; omega
  rw [h2, countdownIterations_eq _ h, fromHexString_loop_hexChars]

theorem fromHexString_loop_total : ∀ (n : Nat) (s : List Char), 2 * n ≤ s.length →
    ∃ buf, fromHexString_loop n s = some buf ∧ buf.length = n
  | 0, _, _ => ⟨[], rfl, rfl⟩
  | n + 1, [], h => by simp only [List.length_nil] at h; omega
  | n + 1, [_], h => by simp only [List.length_cons, List.length_nil] at h; omega
  | n + 1, c1 :: c2 :: s, h => by
    obtain ⟨buf, hb, hl⟩ := fromHexString_loop_total n s
      (by simp only [List.length_cons] at h; omega)
    refine ⟨toByte ((hexDigitValue c1 <<< 4) ||| hexDigitValue c2) :: buf, ?_, ?_⟩
    · simp only [fromHexString_loop, hb]
    · simp [hl]

theorem fromHexString_total (s : List Char) :
    ∃ buf, fromHexString s = some (buf, (s.length + 1) / 2) := by
  unfold fromHexString
  dsimp only
  by_cases hodd : s.length % 2 ≠ 0
  · rw [if_pos hodd]
    obtain ⟨buf, hb, _⟩ := fromHexString_loop_total
      (countdownIterations (('0' :: s).length / 2)) ('0' :: s)
      (by have := countdownIterations_le (('0' :: s).length / 2); omega)
    exact ⟨buf, by rw [hb]; rfl⟩
  · rw [if_neg hodd]
    have he : (s.length + 1) / 2 = s.length / 2 := by omega
    obtain ⟨buf, hb, _⟩ := fromHexString_loop_total
      (countdownIterations (s.length / 2)) s
      (by have := countdownIterations_le (s.length / 2); omega)
    exact ⟨buf, by rw [hb, he]⟩

theorem hexDigitValue_of_not_hex (c : Char) (h : isHexDigit c = false) :
    hexDigitValue c = 0 := by
  unfold isHexDigit at h
  simp only [decide_eq_false_iff_not, not_or] at h
  obtain ⟨h1, h2, h3⟩ := h
  simp only [hexDigitValue, h1, h2, h3, if_false]

theorem hexDigitValue_zeroIfNotHex (c : Char) :
    hexDigitValue (zeroIfNotHex c) = hexDigitValue c := by
  unfold zeroIfNotHex
  cases h : isHexDigit c with
  | true => simp
  | false =>
    simp only [Bool.false_eq_true, if_false, hexDigitValue_of_not_hex c h]
    decide

theorem fromHexString_loop_map : ∀ (n : Nat) (s : List Char),
    fromHexString_loop n (s.map zeroIfNotHex) = fromHexString_loop n s
  | 0, _ => rfl
  | n + 1, [] => rfl
  | n + 1, [_] => rfl
  | n + 1, c1 :: c2 :: s => by
    simp only [List.map_cons, fromHexString_loop, hexDigitValue_zeroIfNotHex,
      fromHexString_loop_map n s]

theorem fromHexString_map (s : List Char) :
    fromHexString (s.map zeroIfNotHex) = fromHexString s := by
  unfold fromHexString
  dsimp only
  have h0 : zeroIfNotHex '0' = '0' := by decide
  have hc : '0' :: s.map zeroIfNotHex = ('0' :: s).map zeroIfNotHex := by
    rw [List.map_cons, h0]
  rw [List.length_map]
  by_cases hodd : s.length % 2 ≠ 0
  · rw [if_pos hodd, if_pos hodd, hc, fromHexString_loop_map, List.length_map]
  · rw [if_neg hodd, if_neg hodd, fromHexString_loop_map, List.length_map]

theorem main_create_eq (core : Core) (a0 a3 a4 a5 : List Char) :
    main core [a0, "hashcash1".toList, "create".toList, a3, a4, a5] =
      main_create core [a0, "hashcash1".toList, "create".toList, a3, a4, a5] := by
  simp [main]

theorem main_verify_eq (core : Core) (a0 a3 a4 : List Char) :
    main core [a0, "hashcash1".toList, "verify".toList, a3, a4] =
      main_verify core [a0, "hashcash1".toList, "verify".toList, a3, a4] := by
  simp [main]

theorem main_create_events (core : Core) (a0 a3 a4 a5 : List Char) (buf : List Byte)
    (size : Nat) (h : fromHexString a3 = some (buf, size)) :
    (main core [a0, "hashcash1".toList, "create".toList, a3, a4, a5]).events.head? =
      some (Event.create buf (core.atoi a4) (core.atoi a5)) := by
  rw [main_create_eq]
  simp only [main_create, List.getElem?_cons_succ, List.getElem?_cons_zero, h]
  cases core.hashcash1_Create buf (core.atoi a4) (core.atoi a5) with
  | none => rfl
  | some key =>
    dsimp only
    cases toHexString key 32 <;> rfl

theorem main_verify_events (core : Core) (a0 a3 a4 : List Char) (key value : List Byte)
    (h3 : fromHexString a3 = some (key, 32)) (h4 : fromHexString a4 = some (value, 32)) :
    (main core [a0, "hashcash1".toList, "verify".toList, a3, a4]).events.head? =
      some (Event.verify key value) := by
  rw [main_verify_eq]
  simp only [main_verify, List.getElem?_cons_succ, List.getElem?_cons_zero, h3, h4]
  cases core.hashcash1_Verify key value <;> simp

/-- Counterexample to C9: `z` is not a hexadecimal digit, yet a challenge of 128 characters
`z` is decoded without any failure, as 64 zero bytes of size 64, and `create` passes that buffer
to `hashcash1_Create`, prints a key and ends with exit code 0. -/
theorem malformed_hex_counterexample :
    isHexDigit 'z' = false ∧
      fromHexString (List.replicate 128 'z') = some (List.replicate 64 0, 64) ∧
      (main demoCore (commandLine ["hashcash1", "create", String.mk (List.replicate 128 'z'),
        "256", "0"])).events.head? = some (Event.create (List.replicate 64 0) 256 0) ∧
      (main demoCore (commandLine ["hashcash1", "create", String.mk (List.replicate 128 'z'),
        "256", "0"])).exitCode = some 0 := by
  decide

theorem main_verify_map (core : Core) (a0 a3 a4 : List Char) :
    main core [a0, "hashcash1".toList, "verify".toList, a3.map zeroIfNotHex,
        a4.map zeroIfNotHex] =
      main core [a0, "hashcash1".toList, "verify".toList, a3, a4] := by
  rw [main_verify_eq, main_verify_eq]
  simp only [main_verify, List.getElem?_cons_succ, List.getElem?_cons_zero,
    fromHexString_map]

theorem main_create_map (core : Core) (a0 a3 a4 a5 : List Char) :
    main core [a0, "hashcash1".toList, "create".toList, a3.map zeroIfNotHex, a4, a5] =
      main core [a0, "hashcash1".toList, "create".toList, a3, a4, a5] := by
  rw [main_create_eq, main_create_eq]
  simp only [main_create, List.getElem?_cons_succ, List.getElem?_cons_zero,
    fromHexString_map]

/-- C9 as amended: `fromHexString` reports no failure. It decodes every string, to
`ceil(|s|/2)` as size, reading a character outside `[0-9a-fA-F]` as the digit `0`; `create`
calls `hashcash1_Create` with the decoded challenge whatever its characters; and every run
of `main`, `create` or `verify`, is the run on the arguments in which each such character
is replaced by `0`. -/
theorem malformed_hex_decoded_as_zero (core : Core) (a0 a3 a4 a5 : List Char) :
    (∃ buf, fromHexString a3 = some (buf, (a3.length + 1) / 2) ∧
        fromHexString (a3.map zeroIfNotHex) = some (buf, (a3.length + 1) / 2) ∧
        (main core [a0, "hashcash1".toList, "create".toList, a3, a4, a5]).events.head? =
          some (Event.create buf (core.atoi a4) (core.atoi a5))) ∧
      (∀ c, isHexDigit c = false → hexDigitValue c = 0 ∧ zeroIfNotHex c = '0') ∧
      main core [a0, "hashcash1".toList, "create".toList, a3.map zeroIfNotHex, a4, a5] =
        main core [a0, "hashcash1".toList, "create".toList, a3, a4, a5] ∧
      main core [a0, "hashcash1".toList, "verify".toList, a3.map zeroIfNotHex,
          a4.map zeroIfNotHex] =
        main core [a0, "hashcash1".toList, "verify".toList, a3, a4] := by
  obtain ⟨buf, hb⟩ := fromHexString_total a3
  refine ⟨⟨buf, hb, ?_, main_create_events core a0 a3 a4 a5 buf _ hb⟩, ?_,
    main_create_map core a0 a3 a4 a5, main_verify_map core a0 a3 a4⟩
  · rw [fromHexString_map, hb]
  · intro c hc
    exact ⟨hexDigitValue_of_not_hex c hc, by simp [zeroIfNotHex, hc]⟩

/-- Witness for C9 as amended: the character `z` is read as the digit `0`. -/
theorem malformed_hex_decoded_as_zero_witness :
    isHexDigit 'z' = false ∧ hexDigitValue 'z' = 0 ∧ zeroIfNotHex 'z' = '0' :=
  ⟨by decide, (malformed_hex_decoded_as_zero demoCore [] [] [] []).2.1 'z' (by decide)⟩

theorem countdownIterations_wraps : countdownIterations (2 ^ 31 + 1) = 0 := by decide

theorem toHexString_wraps (value : List Byte) :
    toHexString value (2 ^ 31 + 1) = some [] := by
  unfold toHexString
  rw [countdownIterations_wraps]
  rfl

/-- Counterexample to C10: for the buffer of `2^31 + 1` zero bytes the loop counter of
`toHexString` wraps to a negative value, the string returned is empty, and `fromHexString`
decodes it to no byte at all with size 0, not to the buffer with size `2^31 + 1`. -/
theorem hex_round_trip_counterexample :
    toHexString (List.replicate (2 ^ 31 + 1) (0 : Byte))
        (List.replicate (2 ^ 31 + 1) (0 : Byte)).length = some [] ∧
      fromHexString [] = some ([], 0) ∧
      (List.replicate (2 ^ 31 + 1) (0 : Byte)).length ≠ 0 := by
  refine ⟨?_, by decide, ?_⟩
  · rw [List.length_replicate]
    exact toHexString_wraps _
  · rw [List.length_replicate]
    norm_num

/-- C10 as amended: for every byte buffer `b` whose length `n` is in the range of the
`int32_t` loop counters (`n ≤ 2^31`, so in particular `n = 64`), `toHexString(b, n)` returns
a string that `fromHexString` decodes to `b` itself, reporting size `n`. -/
theorem hex_round_trip (b : List Byte) (h : b.length ≤ 2 ^ 31) :
    ∃ s, toHexString b b.length = some s ∧ fromHexString s = some (b, b.length) := by
  refine ⟨hexChars b, ?_, fromHexString_hexChars b h⟩
  rw [toHexString_eq b b.length h (le_refl _), List.take_length]

/-- Witness for C10: the round trip of the 64-byte demonstration challenge. -/
theorem hex_round_trip_witness :
    demoChallenge.length ≤ 2 ^ 31 ∧
      ∃ s, toHexString demoChallenge demoChallenge.length = some s ∧
        fromHexString s = some (demoChallenge, demoChallenge.length) :=
  ⟨by decide, hex_round_trip demoChallenge (by decide)⟩

/-- C11: the result of `hashcash1_Verify` does not depend on the entropy that seeds the
generator it constructs; it is a function of the key and the challenge only (the function
reads no clock). -/
theorem verify_deterministic (H : Hash) (e1 e2 : Nat → Nat) (key value : List Byte) :
    hashcash1_Verify H e1 key value = hashcash1_Verify H e2 key value := by
  simp only [hashcash1_Verify]

theorem leadingZeroBits_le (d : List Byte) : leadingZeroBits d ≤ 8 * d.length := by
  have h1 : ∀ l : List Byte, (digestBits l).length = 8 * l.length := by
    intro l
    induction l with
    | nil => rfl
    | cons b bs ih => simp only [digestBits, List.length_append, byteBits_length, ih,
        List.length_cons]; omega
  unfold leadingZeroBits
  rw [← h1 d]
  exact (List.takeWhile_sublist _).length_le

/-- C12: for a 64-byte key and a 64-byte challenge, `hashcash1_Verify` returns an integer
between 0 and 512, both included. -/
theorem verify_range (H : Hash) (entropy : Nat → Nat) (key value : List Byte)
    (hk : key.length = 64) (hv : value.length = 64) :
    ∃ count : Int, hashcash1_Verify H entropy key value = some count ∧
      0 ≤ count ∧ count ≤ 512 := by
  refine ⟨_, verify_eq H entropy key value hk hv, by positivity, ?_⟩
  have := leadingZeroBits_le (H.digest (key ++ value))
  rw [H.size] at this
  exact_mod_cast this

/-- Witness for C12: the score of the demonstration challenge used as key and as challenge. -/
theorem verify_range_witness :
    demoChallenge.length = 64 ∧
      ∃ count : Int, hashcash1_Verify demoHash demoEntropy demoChallenge demoChallenge
        = some count ∧ 0 ≤ count ∧ count ≤ 512 :=
  ⟨by decide, verify_range demoHash demoEntropy demoChallenge demoChallenge
    (by decide) (by decide)⟩

theorem xorshiftWord_lt (s0 s1 : Nat) (h0 : s0 < 2 ^ 64) (h1 : s1 < 2 ^ 64) :
    xorshiftWord s0 s1 < 2 ^ 64 := by
  unfold xorshiftWord
  have ha : s1 ^^^ (s1 * 2 ^ 25 % 2 ^ 64) < 2 ^ 64 :=
    Nat.xor_lt_two_pow h1 (Nat.mod_lt _ (by positivity))
  have hb : (s1 ^^^ (s1 * 2 ^ 25 % 2 ^ 64)) / 2 ^ 3 < 2 ^ 64 :=
    lt_of_le_of_lt (Nat.div_le_self _ _) ha
  have hc : s0 / 2 ^ 49 < 2 ^ 64 := lt_of_le_of_lt (Nat.div_le_self _ _) h0
  exact Nat.xor_lt_two_pow (Nat.xor_lt_two_pow h0 hc) (Nat.xor_lt_two_pow ha hb)

theorem Xorshift.next_eq (x : Xorshift) (hs : x.s.length = 64) (hp : x.p < 64) :
    ∃ s0 s1, x.s[x.p]? = some s0 ∧ x.s[(x.p + 1) % 64]? = some s1 ∧
      x.next = some (xorshiftWord s0 s1 * 8372773778140471301 % 2 ^ 64,
        { s := x.s.set ((x.p + 1) % 64) (xorshiftWord s0 s1), p := (x.p + 1) % 64 }) := by
  have h63 : (x.p + 1) &&& 63 = (x.p + 1) % 64 := Nat.and_pow_two_sub_one_eq_mod (x.p + 1) 6
  have hp0 : x.p < x.s.length := by omega
  have hp1 : (x.p + 1) % 64 < x.s.length := by omega
  have h0 : x.s[x.p]? = some (x.s[x.p]) := List.getElem?_eq_getElem hp0
  have h1 : x.s[(x.p + 1) % 64]? = some (x.s[(x.p + 1) % 64]) := List.getElem?_eq_getElem hp1
  refine ⟨_, _, h0, h1, ?_⟩
  unfold Xorshift.next
  rw [h0]
  dsimp only
  rw [h63, h1]
  simp only [xorshiftWord, Nat.shiftLeft_eq, Nat.shiftRight_eq_div_pow]

/-- C13: on a generator with 64 words and `p < 64`, `next()` reads `s0 = s[p]` and
`s1 = s[p1]` for `p1 = (p + 1) mod 64`, returns `xorshiftWord s0 s1 * 8372773778140471301`
modulo `2^64`, sets `p` to `p1`, stores `xorshiftWord s0 s1` at `p1` and leaves every other
word unchanged; the word stored is a 64-bit word when the words read are. -/
theorem xorshift_next_spec (x : Xorshift) (hs : x.s.length = 64) (hp : x.p < 64) :
    ∃ s0 s1 x1, x.s[x.p]? = some s0 ∧ x.s[(x.p + 1) % 64]? = some s1 ∧
      x.next = some (xorshiftWord s0 s1 * 8372773778140471301 % 2 ^ 64, x1) ∧
      x1.p = (x.p + 1) % 64 ∧ x1.s.length = 64 ∧
      x1.s[(x.p + 1) % 64]? = some (xorshiftWord s0 s1) ∧
      (∀ j, j ≠ (x.p + 1) % 64 → x1.s[j]? = x.s[j]?) ∧
      (s0 < 2 ^ 64 → s1 < 2 ^ 64 → xorshiftWord s0 s1 < 2 ^ 64) := by
  obtain ⟨s0, s1, h0, h1, hn⟩ := Xorshift.next_eq x hs hp
  have hp1 : (x.p + 1) % 64 < x.s.length := by omega
  refine ⟨s0, s1, _, h0, h1, hn, rfl, by simp [hs], ?_, ?_, xorshiftWord_lt s0 s1⟩
  · exact List.getElem?_set_self hp1
  · intro j hj
    exact List.getElem?_set_ne (fun h => hj h.symm)

/-- Witness for C13: the first call on the demonstration generator. -/
theorem xorshift_next_spec_witness :
    (Xorshift.create demoEntropy).s.length = 64 ∧ (Xorshift.create demoEntropy).p < 64 ∧
      ∃ s0 s1 x1, (Xorshift.create demoEntropy).s[0]? = some s0 ∧
        (Xorshift.create demoEntropy).s[1]? = some s1 ∧
        (Xorshift.create demoEntropy).next
          = some (xorshiftWord s0 s1 * 8372773778140471301 % 2 ^ 64, x1) := by
  refine ⟨by decide, by decide, ?_⟩
  obtain ⟨s0, s1, x1, h0, h1, hn, _⟩ :=
    xorshift_next_spec (Xorshift.create demoEntropy) (by decide) (by decide)
  exact ⟨s0, s1, x1, h0, h1, hn⟩

theorem wordsBytes_length : ∀ ws : List Nat, (wordsBytes ws).length = 4 * ws.length
  | [] => rfl
  | w :: ws => by
    simp only [wordsBytes, List.length_append, wordsBytes_length ws, List.length_cons]
    simp [storeBytes32]
    omega

theorem Xorshift.nextN_length : ∀ (k : Nat) (x x1 : Xorshift) (ws : List Nat),
    Xorshift.nextN k x = some (ws, x1) → ws.length = k
  | 0, x, x1, ws, h => by
    simp only [Xorshift.nextN, Option.some.injEq, Prod.mk.injEq] at h
    rw [← h.1]; rfl
  | k + 1, x, x1, ws, h => by
    simp only [Xorshift.nextN] at h
    split at h
    · cases h
    · rename_i w x2 hn
      split at h
      · cases h
      · rename_i ws1 x3 hk
        simp only [Option.some.injEq, Prod.mk.injEq] at h
        rw [← h.1, List.length_cons, Xorshift.nextN_length k x2 x3 ws1 hk]

theorem storeU32_eq_append (front back : List Byte) (old : List Byte) (i w : Nat)
    (hf : front.length = 4 * i) (ho : old.length = 4) :
    storeU32 (front ++ old ++ back) i w = front ++ storeBytes32 w ++ back := by
  unfold storeU32
  have h1 : (front ++ old ++ back).take (4 * i) = front := by
    rw [List.append_assoc, ← hf]
    exact List.take_left _ _
  have h2 : (front ++ old ++ back).drop (4 * i + 4) = back := by
    have : 4 * i + 4 = (front ++ old).length := by simp [hf, ho]
    rw [this]
    exact List.drop_left _ _
  rw [h1, h2]

theorem fillSlots_eq : ∀ (k i : Nat) (x : Xorshift) (front mid back : List Byte),
    front.length = 4 * i → mid.length = 4 * k →
    fillSlots k i x (front ++ mid ++ back) =
      match Xorshift.nextN k x with
      | none => none
      | some (ws, x1) => some (front ++ wordsBytes ws ++ back, x1)
  | 0, i, x, front, mid, back, _, hm => by
    have : mid = [] := List.eq_nil_of_length_eq_zero (by omega)
    subst this
    simp [fillSlots, Xorshift.nextN, wordsBytes]
  | k + 1, i, x, front, mid, back, hf, hm => by
    simp only [fillSlots, Xorshift.nextN]
    cases hn : x.next with
    | none => rfl
    | some r =>
      obtain ⟨w, x1⟩ := r
      dsimp only
      have hsplit : mid = mid.take 4 ++ mid.drop 4 := (List.take_append_drop 4 mid).symm
      have ht : (mid.take 4).length = 4 := by simp; omega
      have hd : (mid.drop 4).length = 4 * k := by simp; omega
      have hst : storeU32 (front ++ mid ++ back) i w =
          (front ++ storeBytes32 w) ++ mid.drop 4 ++ back := by
        conv_lhs => rw [hsplit, ← List.append_assoc front, List.append_assoc _ (mid.drop 4) back]
        rw [storeU32_eq_append front (mid.drop 4 ++ back) (mid.take 4) i w hf ht]
        simp only [List.append_assoc]
      rw [hst, fillSlots_eq k (i + 1) x1 (front ++ storeBytes32 w) (mid.drop 4) back
        (by simp [storeBytes32, hf]; omega) hd]
      cases Xorshift.nextN k x1 with
      | none => rfl
      | some r2 =>
        obtain ⟨ws, x2⟩ := r2
        simp only [wordsBytes, List.append_assoc]

theorem fillSlots_16 (x x1 : Xorshift) (buf buf1 : List Byte) (hb : buf.length = 128)
    (h : fillSlots 16 0 x buf = some (buf1, x1)) :
    ∃ ws, Xorshift.nextN 16 x = some (ws, x1) ∧ ws.length = 16 ∧
      buf1 = wordsBytes ws ++ buf.drop 64 := by
  have hsplit : buf = [] ++ buf.take 64 ++ buf.drop 64 := by simp
  rw [hsplit, fillSlots_eq 16 0 x [] (buf.take 64) (buf.drop 64) rfl (by simp; omega)] at h
  split at h
  · cases h
  · rename_i ws x2 hn
    simp only [List.nil_append, Option.some.injEq, Prod.mk.injEq] at h
    obtain ⟨h1, h2⟩ := h
    subst h2
    refine ⟨ws, hn, Xorshift.nextN_length 16 x x2 ws hn, ?_⟩
    rw [← h1]

theorem wordsBytes_getElem? : ∀ (ws : List Nat) (rest : List Byte) (i k : Nat),
    i < ws.length → k < 4 →
    ∃ w, ws[i]? = some w ∧
      (wordsBytes ws ++ rest)[4 * i + k]? = some (toByte (w % 2 ^ 32 / 2 ^ (8 * k)))
  | [], _, i, k, hi, _ => by simp at hi
  | w :: ws, rest, 0, k, _, hk => by
    refine ⟨w, by simp, ?_⟩
    simp only [wordsBytes, storeBytes32, Nat.mul_zero, Nat.zero_add]
    interval_cases k <;> simp
  | w :: ws, rest, i + 1, k, hi, hk => by
    obtain ⟨w1, h1, h2⟩ := wordsBytes_getElem? ws rest i k (by simpa using hi) hk
    refine ⟨w1, by simpa using h1, ?_⟩
    have hidx : 4 * (i + 1) + k = (4 * i + k) + 4 := by omega
    rw [hidx]
    simp only [wordsBytes, storeBytes32, List.cons_append, List.nil_append,
      List.getElem?_cons_succ]
    exact h2

theorem init_words (H : Hash) (entropy : Nat → Nat) (value : List Byte) (st : SearchState)
    (h : hashcash1_Create_init H entropy value = some st) :
    ∃ ws, Xorshift.nextN 16 (Xorshift.create entropy) = some (ws, st.xorshift) ∧
      ws.length = 16 ∧ st.currentState = wordsBytes ws ++ value.take 64 := by
  unfold hashcash1_Create_init at h
  split at h
  · cases h
  · rename_i hv
    dsimp only at h
    split at h
    · cases h
    · rename_i cs x hfill
      have hlen : (List.replicate 64 (0 : Byte) ++ value.take 64).length = 128 := by
        simp; omega
      obtain ⟨ws, hn, hl, hcs⟩ := fillSlots_16 _ x _ cs hlen hfill
      simp only [Option.some.injEq] at h
      subst h
      refine ⟨ws, hn, hl, ?_⟩
      rw [hcs]
      congr 1

theorem step_words (H : Hash) (st st1 : SearchState) (hlen : st.currentState.length = 128)
    (h : hashcash1_Create_step H st = some st1) :
    ∃ ws, Xorshift.nextN 16 st.xorshift = some (ws, st1.xorshift) ∧ ws.length = 16 ∧
      st1.currentState = wordsBytes ws ++ st.currentState.drop 64 := by
  unfold hashcash1_Create_step at h
  split at h
  · cases h
  · rename_i cs x hfill
    obtain ⟨ws, hn, hl, hcs⟩ := fillSlots_16 _ x _ cs hlen hfill
    dsimp only at h
    split at h <;>
      (simp only [Option.some.injEq] at h; subst h; exact ⟨ws, hn, hl, hcs⟩)

/-- C14: on a 64-byte challenge every candidate of `hashcash1_Create` is built from 16
consecutive `next()` calls. The initialisation makes them on the freshly constructed
generator, and each loop iteration, from any reachable state, makes them on the generator
the previous candidate left, leaving the generator after these 16 calls. In both cases the
buffer built is the one hashed, it has 128 bytes, its bytes 64..127 are the challenge, and
its byte `4i + k` is byte `k` of the low 32 bits of the result of call `i`, least
significant byte first, so the high 32 bits of each result are not used. -/
theorem candidate_prefix_layout (H : Hash) (entropy : Nat → Nat) (value : List Byte)
    (hv : value.length = 64) :
    (∀ st0, hashcash1_Create_init H entropy value = some st0 →
        ∃ ws, Xorshift.nextN 16 (Xorshift.create entropy) = some (ws, st0.xorshift) ∧
          ws.length = 16 ∧ st0.hashed = [st0.currentState] ∧
          st0.currentResult = H.digest st0.currentState ∧
          st0.currentState.length = 128 ∧ st0.currentState.drop 64 = value ∧
          ∀ i < 16, ∀ k < 4, ∃ w, ws[i]? = some w ∧
            st0.currentState[4 * i + k]? = some (toByte (w % 2 ^ 32 / 2 ^ (8 * k)))) ∧
      ∀ st st1, Reachable H entropy value st → hashcash1_Create_step H st = some st1 →
        ∃ ws, Xorshift.nextN 16 st.xorshift = some (ws, st1.xorshift) ∧
          ws.length = 16 ∧ st1.hashed = st.hashed ++ [st1.currentState] ∧
          st1.currentResult = H.digest st1.currentState ∧
          st1.currentState.length = 128 ∧ st1.currentState.drop 64 = value ∧
          ∀ i < 16, ∀ k < 4, ∃ w, ws[i]? = some w ∧
            st1.currentState[4 * i + k]? = some (toByte (w % 2 ^ 32 / 2 ^ (8 * k))) := by
  have hv1 : value.take 64 = value := List.take_of_length_le (by omega)
  have bytes : ∀ (cs : List Byte) (ws : List Nat), ws.length = 16 → ∀ rest,
      cs = wordsBytes ws ++ rest →
      ∀ i < 16, ∀ k < 4, ∃ w, ws[i]? = some w ∧
        cs[4 * i + k]? = some (toByte (w % 2 ^ 32 / 2 ^ (8 * k))) := by
    intro cs ws hl rest hcs i hi k hk
    rw [hcs]
    exact wordsBytes_getElem? ws rest i k (by omega) hk
  constructor
  · intro st0 h0
    obtain ⟨hinv, hh, hfs⟩ := init_inv H entropy value st0 h0
    rw [hv1] at hinv
    obtain ⟨ws, hn, hl, hcs⟩ := init_words H entropy value st0 h0
    have hres : st0.currentResult = H.digest st0.currentState := by
      have := hinv.result
      rw [hfs] at this
      unfold hashcash1_Create_init at h0
      split at h0
      · cases h0
      · dsimp only at h0
        split at h0
        · cases h0
        · simp only [Option.some.injEq] at h0
          subst h0
          rfl
    exact ⟨ws, hn, hl, hh, hres, hinv.cur_len, hinv.cur_chal, bytes _ ws hl _ hcs⟩
  · intro st st1 hr hs
    have hinv0 := reachable_inv H entropy value st hr
    have hinv1 := step_inv H _ st st1 hinv0 hs
    rw [hv1] at hinv1
    obtain ⟨ws, hn, hl, hcs⟩ := step_words H st st1 hinv0.cur_len hs
    obtain ⟨hh, hcr, _⟩ := step_hashed H st st1 hs
    exact ⟨ws, hn, hl, hh, hcr, hinv1.cur_len, hinv1.cur_chal, bytes _ ws hl _ hcs⟩

/-- Witness for C14: the first loop iteration on the demonstration inputs builds its
candidate from 16 calls on the generator that the initialisation left. -/
theorem candidate_prefix_layout_witness :
    demoChallenge.length = 64 ∧
      ∃ st st1 ws, hashcash1_Create_init demoHash demoEntropy demoChallenge = some st ∧
        hashcash1_Create_step demoHash st = some st1 ∧
        Xorshift.nextN 16 st.xorshift = some (ws, st1.xorshift) ∧ ws.length = 16 ∧
        st1.hashed = st.hashed ++ [st1.currentState] ∧
        st1.currentState.drop 64 = demoChallenge ∧
        ∀ i < 16, ∀ k < 4, ∃ w, ws[i]? = some w ∧
          st1.currentState[4 * i + k]? = some (toByte (w % 2 ^ 32 / 2 ^ (8 * k))) := by
  obtain ⟨st, hst, hw⟩ := init_total demoHash demoEntropy demoChallenge (by decide)
  obtain ⟨st1, hs, _⟩ := step_total demoHash st hw
  obtain ⟨ws, hn, hl, hh, _, _, hc, hb⟩ :=
    (candidate_prefix_layout demoHash demoEntropy demoChallenge (by decide)).2 st st1
      (Reachable.init hst) hs
  exact ⟨by decide, st, st1, ws, hst, hs, hn, hl, hh, hc, hb⟩

theorem getHexValue_digit : ∀ x : Byte,
    lowerHexDigits[x.val >>> 4]? = some (getHexValue (x.val >>> 4)) ∧
      lowerHexDigits[x.val &&& 0x0F]? = some (getHexValue (x.val &&& 0x0F)) ∧
      getHexValue (x.val >>> 4) ∈ lowerHexDigits ∧
      getHexValue (x.val &&& 0x0F) ∈ lowerHexDigits := by
  decide

theorem hexChars_getElem? : ∀ (b : List Byte) (i : Nat) (x : Byte), b[i]? = some x →
    (hexChars b)[2 * i]? = some (getHexValue (x.val >>> 4)) ∧
      (hexChars b)[2 * i + 1]? = some (getHexValue (x.val &&& 0x0F))
  | [], i, x, h => by simp at h
  | y :: bs, 0, x, h => by
    simp only [List.getElem?_cons_zero, Option.some.injEq] at h
    subst h
    simp [hexChars]
  | y :: bs, i + 1, x, h => by
    simp only [List.getElem?_cons_succ] at h
    obtain ⟨h1, h2⟩ := hexChars_getElem? bs i x h
    have e1 : 2 * (i + 1) = (2 * i) + 1 + 1 := by omega
    have e2 : 2 * (i + 1) + 1 = (2 * i + 1) + 1 + 1 := by omega
    constructor
    · rw [e1]; simp only [hexChars, List.getElem?_cons_succ]; exact h1
    · rw [e2]; simp only [hexChars, List.getElem?_cons_succ]; exact h2

theorem hexChars_mem : ∀ (b : List Byte) (c : Char), c ∈ hexChars b → c ∈ lowerHexDigits
  | [], c, h => by simp [hexChars] at h
  | y :: bs, c, h => by
    simp only [hexChars, List.mem_cons] at h
    rcases h with rfl | rfl | h
    · exact (getHexValue_digit y).2.2.1
    · exact (getHexValue_digit y).2.2.2
    · exact hexChars_mem bs c h

/-- Counterexample to C15: for the buffer of `n = 2^31 + 1` zero bytes `toHexString(b, n)`
returns the empty string, which has 0 characters and not `2n`. -/
theorem toHexString_counterexample :
    (List.replicate (2 ^ 31 + 1) (0 : Byte)).length = 2 ^ 31 + 1 ∧
      toHexString (List.replicate (2 ^ 31 + 1) (0 : Byte)) (2 ^ 31 + 1) = some [] ∧
      ([] : List Char).length ≠ 2 * (2 ^ 31 + 1) := by
  refine ⟨List.length_replicate _ _, toHexString_wraps _, ?_⟩
  norm_num

/-- C15 as amended: for every byte buffer `b` whose length `n` is in the range of the
`int32_t` loop counter (`n ≤ 2^31`), `toHexString(b, n)` returns a string of `2n`
characters, all among `0123456789abcdef`, in which character `2i` is the digit of
`b[i] >> 4` and character `2i + 1` the digit of `b[i] & 0x0F`. -/
theorem toHexString_spec (b : List Byte) (h : b.length ≤ 2 ^ 31) :
    ∃ s, toHexString b b.length = some s ∧ s.length = 2 * b.length ∧
      (∀ c ∈ s, c ∈ lowerHexDigits) ∧
      ∀ i x, b[i]? = some x →
        s[2 * i]? = lowerHexDigits[x.val >>> 4]? ∧
        s[2 * i + 1]? = lowerHexDigits[x.val &&& 0x0F]? := by
  refine ⟨hexChars b, ?_, hexChars_length b, hexChars_mem b, ?_⟩
  · rw [toHexString_eq b b.length h (le_refl _), List.take_length]
  · intro i x hx
    obtain ⟨h1, h2⟩ := hexChars_getElem? b i x hx
    rw [h1, h2, (getHexValue_digit x).1, (getHexValue_digit x).2.1]
    exact ⟨rfl, rfl⟩

/-- Witness for C15: the encoding of the 64-byte demonstration challenge. -/
theorem toHexString_spec_witness :
    demoChallenge.length ≤ 2 ^ 31 ∧
      ∃ s, toHexString demoChallenge demoChallenge.length = some s ∧
        s.length = 2 * demoChallenge.length ∧ ∀ c ∈ s, c ∈ lowerHexDigits := by
  obtain ⟨s, h1, h2, h3, _⟩ := toHexString_spec demoChallenge (by decide)
  exact ⟨by decide, s, h1, h2, h3⟩

theorem char_le_iff (a b : Char) : a ≤ b ↔ a.toNat ≤ b.toNat := by
  rw [Char.le_def]
  exact Iff.rfl

theorem isHexDigit_lt (c : Char) (h : isHexDigit c = true) : c.toNat < 128 := by
  unfold isHexDigit at h
  simp only [decide_eq_true_eq, char_le_iff] at h
  have h9 : '9'.toNat = 57 := rfl
  have hf : 'f'.toNat = 102 := rfl
  have hF : 'F'.toNat = 70 := rfl
  rw [h9, hf, hF] at h
  omega

theorem hexDigit_cases (P : Char → Prop)
    (hP : ∀ n : Fin 128, isHexDigit (Char.ofNat n.val) = true → P (Char.ofNat n.val))
    (c : Char) (hc : isHexDigit c = true) : P c := by
  have h := hP ⟨c.toNat, isHexDigit_lt c hc⟩
  simp only [Char.ofNat_toNat] at h
  exact h hc

theorem hexDigitValue_eq_spec (c : Char) (hc : isHexDigit c = true) :
    hexDigitValue c = hexDigitSpec c ∧ hexDigitValue c < 16 ∧
      hexDigitValue c.toLower = hexDigitValue c := by
  revert hc
  apply hexDigit_cases (fun c => hexDigitValue c = hexDigitSpec c ∧ hexDigitValue c < 16 ∧
      hexDigitValue c.toLower = hexDigitValue c)
  decide

theorem shiftLeft_four_or (a b : Nat) (ha : a < 16) (hb : b < 16) :
    (a <<< 4) ||| b = 16 * a + b := by
  have : ∀ a b : Fin 16, (a.val <<< 4) ||| b.val = 16 * a.val + b.val := by decide
  exact this ⟨a, ha⟩ ⟨b, hb⟩

theorem fromHexString_loop_spec : ∀ (n : Nat) (v : List Char),
    (∀ c ∈ v, isHexDigit c = true) → v.length = 2 * n →
    fromHexString_loop n v = some (readHexPairs v) ∧ (readHexPairs v).length = n
  | 0, v, _, hl => by
    have : v = [] := List.eq_nil_of_length_eq_zero (by omega)
    subst this
    exact ⟨rfl, rfl⟩
  | n + 1, [], _, hl => by simp only [List.length_nil] at hl; omega
  | n + 1, [_], _, hl => by simp only [List.length_cons, List.length_nil] at hl; omega
  | n + 1, c1 :: c2 :: rest, hhex, hl => by
    obtain ⟨ih, ihl⟩ := fromHexString_loop_spec n rest
      (fun c hc => hhex c (by simp [hc])) (by simp only [List.length_cons] at hl; omega)
    obtain ⟨e1, l1, _⟩ := hexDigitValue_eq_spec c1 (hhex c1 (by simp))
    obtain ⟨e2, l2, _⟩ := hexDigitValue_eq_spec c2 (hhex c2 (by simp))
    simp only [fromHexString_loop, ih, readHexPairs, List.length_cons, ihl]
    rw [shiftLeft_four_or _ _ l1 l2, e1, e2]
    exact ⟨rfl, trivial⟩

theorem fromHexString_loop_map_of (f : Char → Char) : ∀ (n : Nat) (v : List Char),
    (∀ c ∈ v, hexDigitValue (f c) = hexDigitValue c) →
    fromHexString_loop n (v.map f) = fromHexString_loop n v
  | 0, _, _ => rfl
  | n + 1, [], _ => rfl
  | n + 1, [_], _ => rfl
  | n + 1, c1 :: c2 :: rest, h => by
    simp only [List.map_cons, fromHexString_loop, h c1 (by simp), h c2 (by simp),
      fromHexString_loop_map_of f n rest (fun c hc => h c (by simp [hc]))]

theorem fromHexString_of_no_iteration (s : List Char) (h : ¬ s.length % 2 ≠ 0)
    (hc : countdownIterations (s.length / 2) = 0) :
    fromHexString s = some ([], s.length / 2) := by
  unfold fromHexString
  dsimp only
  rw [if_neg h, hc]
  rfl

theorem decodeHexSpec_ne_nil (c1 c2 : Char) (rest : List Char)
    (h : ¬ (c1 :: c2 :: rest).length % 2 = 1) : decodeHexSpec (c1 :: c2 :: rest) ≠ [] := by
  unfold decodeHexSpec
  rw [if_neg h, readHexPairs]
  exact List.cons_ne_nil _ _

theorem zeros_length :
    ('0' :: '0' :: List.replicate (2 ^ 32) '0').length = 2 ^ 32 + 2 := by
  rw [List.length_cons, List.length_cons, List.length_replicate]

/-- Counterexample to C16: for the string of `2^32 + 2` digits `0` the size reported is
`2^31 + 1`, the loop counter of `fromHexString` wraps to a negative value and no byte is
written, where reading the string two digits per byte gives at least one byte. -/
theorem fromHexString_counterexample :
    (∀ c ∈ '0' :: '0' :: List.replicate (2 ^ 32) '0', isHexDigit c = true) ∧
      fromHexString ('0' :: '0' :: List.replicate (2 ^ 32) '0') = some ([], 2 ^ 31 + 1) ∧
      decodeHexSpec ('0' :: '0' :: List.replicate (2 ^ 32) '0') ≠ [] := by
  have hsz : (2 ^ 32 + 2) / 2 = 2 ^ 31 + 1 := by norm_num
  refine ⟨?_, ?_, decodeHexSpec_ne_nil _ _ _ (by rw [zeros_length]; norm_num)⟩
  · intro c hc
    have h0 : isHexDigit '0' = true := by decide
    rcases List.mem_cons.mp hc with rfl | hc
    · exact h0
    · rcases List.mem_cons.mp hc with rfl | hc
      · exact h0
      · rw [List.eq_of_mem_replicate hc]; exact h0
  · have h := fromHexString_of_no_iteration ('0' :: '0' :: List.replicate (2 ^ 32) '0')
      (by rw [zeros_length]; norm_num)
      (by rw [zeros_length, hsz]; exact countdownIterations_wraps)
    rw [zeros_length, hsz] at h
    exact h

/-- C16 as amended: for every string `s` of hexadecimal digits in either case whose decoded
size is in the range of the `int32_t` loop counter (at most `2^31`), `fromHexString(s)`
reports size `ceil(|s|/2)` and returns the bytes of `decodeHexSpec s`: `s` padded on the
left with one `0` when its length is odd and read two digits per byte, the most significant
nibble first; a digit has the value of its lower-case form, and decoding the lower-cased
string gives the same result. -/
theorem fromHexString_spec (s : List Char) (hhex : ∀ c ∈ s, isHexDigit c = true)
    (hlen : (s.length + 1) / 2 ≤ 2 ^ 31) :
    fromHexString s = some (decodeHexSpec s, (s.length + 1) / 2) ∧
      (decodeHexSpec s).length = (s.length + 1) / 2 ∧
      (∀ c ∈ s, hexDigitValue c.toLower = hexDigitValue c ∧
        hexDigitValue c = lowerHexDigits.indexOf c.toLower) ∧
      fromHexString (s.map Char.toLower) = fromHexString s := by
  have hlow : ∀ c ∈ s, hexDigitValue c.toLower = hexDigitValue c :=
    fun c hc => (hexDigitValue_eq_spec c (hhex c hc)).2.2
  have h0 : isHexDigit '0' = true := by decide
  have h0l : Char.toLower '0' = '0' := by decide
  refine ⟨?_, ?_, fun c hc => ⟨hlow c hc, (hexDigitValue_eq_spec c (hhex c hc)).1⟩, ?_⟩
  · unfold fromHexString decodeHexSpec
    dsimp only
    by_cases hodd : s.length % 2 ≠ 0
    · have h1 : s.length % 2 = 1 := by omega
      have hsz : ('0' :: s).length / 2 = (s.length + 1) / 2 := rfl
      rw [if_pos hodd, if_pos h1, hsz, countdownIterations_eq _ hlen]
      rw [(fromHexString_loop_spec ((s.length + 1) / 2) ('0' :: s)
        (by intro c hc; rcases List.mem_cons.mp hc with rfl | hc
            · exact h0
            · exact hhex c hc)
        (by simp only [List.length_cons]; omega)).1]
    · have h1 : ¬ s.length % 2 = 1 := by omega
      have hsz : s.length / 2 = (s.length + 1) / 2 := by omega
      rw [if_neg hodd, if_neg h1, hsz, countdownIterations_eq _ hlen]
      rw [(fromHexString_loop_spec ((s.length + 1) / 2) s hhex (by omega)).1]
  · unfold decodeHexSpec
    by_cases h1 : s.length % 2 = 1
    · rw [if_pos h1]
      exact (fromHexString_loop_spec ((s.length + 1) / 2) ('0' :: s)
        (by intro c hc; rcases List.mem_cons.mp hc with rfl | hc
            · exact h0
            · exact hhex c hc)
        (by simp only [List.length_cons]; omega)).2
    · rw [if_neg h1]
      exact (fromHexString_loop_spec ((s.length + 1) / 2) s hhex (by omega)).2
  · unfold fromHexString
    dsimp only
    rw [List.length_map]
    by_cases hodd : s.length % 2 ≠ 0
    · have hc : '0' :: s.map Char.toLower = ('0' :: s).map Char.toLower := by
        rw [List.map_cons, h0l]
      rw [if_pos hodd, if_pos hodd, hc, fromHexString_loop_map_of Char.toLower _ ('0' :: s)
        (by intro c hc; rcases List.mem_cons.mp hc with rfl | hc
            · rw [h0l]
            · exact hlow c hc), List.length_map]
    · rw [if_neg hodd, if_neg hodd, fromHexString_loop_map_of Char.toLower _ s hlow,
        List.length_map]

/-- Witness for C16: the three digits `abC` decode to the bytes `0a` and `bc`. -/
theorem fromHexString_spec_witness :
    (∀ c ∈ "abC".toList, isHexDigit c = true) ∧ ("abC".toList.length + 1) / 2 ≤ 2 ^ 31 ∧
      fromHexString "abC".toList = some (decodeHexSpec "abC".toList, 2) ∧
      decodeHexSpec "abC".toList = [toByte 0x0a, toByte 0xbc] :=
  ⟨by decide, by decide,
    (fromHexString_spec "abC".toList (by decide) (by decide)).1, by decide⟩

theorem replaces_eq_unsigned : ∀ (n i : Nat) (fr cr : List Byte),
    replaces fr cr n i = replacesUnsigned fr cr n i
  | 0, _, _, _ => rfl
  | n + 1, i, fr, cr => by
    simp only [replaces, replacesUnsigned, replaces_eq_unsigned n (i + 1) fr cr]
    by_cases h1 : (cr.getD i 0).val < (fr.getD i 0).val
    · have h2 : ¬ (((fr.getD i 0).val : Int) - ((cr.getD i 0).val : Int) < 0) := by omega
      have h3 : ¬ (((fr.getD i 0).val : Int) - ((cr.getD i 0).val : Int) = 0) := by omega
      simp only [h1, h2, h3, if_true, if_false]
    · by_cases h4 : (fr.getD i 0).val < (cr.getD i 0).val
      · have h2 : ((fr.getD i 0).val : Int) - ((cr.getD i 0).val : Int) < 0 := by omega
        simp only [h1, h2, h4, if_true, if_false]
      · have h2 : ¬ (((fr.getD i 0).val : Int) - ((cr.getD i 0).val : Int) < 0) := by omega
        have h3 : ((fr.getD i 0).val : Int) - ((cr.getD i 0).val : Int) = 0 := by omega
        simp only [h1, h2, h3, h4, if_true, if_false, lt_self_iff_false]

/-- C17: in one iteration of the loop of `hashcash1_Create`, with an incumbent digest of 64
bytes, the comparison loop reaches its copying branch exactly when the candidate digest is
strictly smaller than the incumbent digest in unsigned byte-wise lexicographic order; then
`finalState` and `finalResult` become the candidate buffer and digest, and otherwise both
are left unchanged. The subtraction-based loop of the source decides the same as the direct
unsigned comparison of the specification, on all byte values. -/
theorem step_replaces_iff_smaller (H : Hash) (st st1 : SearchState)
    (hlen : st.finalResult.length = 64) (hs : hashcash1_Create_step H st = some st1) :
    st1.currentResult = H.digest st1.currentState ∧
      (replaces st.finalResult st1.currentResult 64 0 = true ↔
        digestLT st1.currentResult st.finalResult) ∧
      (digestLT st1.currentResult st.finalResult →
        st1.finalState = st1.currentState ∧ st1.finalResult = st1.currentResult) ∧
      (¬ digestLT st1.currentResult st.finalResult →
        st1.finalState = st.finalState ∧ st1.finalResult = st.finalResult) ∧
      ∀ (n i : Nat) (fr cr : List Byte), replaces fr cr n i = replacesUnsigned fr cr n i := by
  obtain ⟨_, hcr, _, hrep, hkeep⟩ := step_hashed H st st1 hs
  have hcl : st1.currentResult.length = 64 := by rw [hcr]; exact H.size _
  have hiff : replaces st.finalResult st1.currentResult 64 0 = true ↔
      digestLT st1.currentResult st.finalResult := by
    have := replaces_iff 64 0 st.finalResult st1.currentResult (by omega) (by omega)
    simpa using this
  refine ⟨hcr, hiff, fun h => hrep (hiff.mpr h), fun h => hkeep ?_, replaces_eq_unsigned⟩
  cases hr : replaces st.finalResult st1.currentResult 64 0 with
  | true => exact absurd (hiff.mp hr) h
  | false => rfl

/-- Witness for C17: the first loop iteration on the demonstration inputs. -/
theorem step_replaces_iff_smaller_witness :
    ∃ st st1, hashcash1_Create_init demoHash demoEntropy demoChallenge = some st ∧
      st.finalResult.length = 64 ∧ hashcash1_Create_step demoHash st = some st1 ∧
      (replaces st.finalResult st1.currentResult 64 0 = true ↔
        digestLT st1.currentResult st.finalResult) := by
  obtain ⟨st, hst⟩ := Option.isSome_iff_exists.mp
    (by decide : (hashcash1_Create_init demoHash demoEntropy demoChallenge).isSome = true)
  have hinv := (init_inv demoHash demoEntropy demoChallenge st hst).1
  have hlen : st.finalResult.length = 64 := by rw [hinv.result]; exact demoHash.size _
  obtain ⟨st0, h0, hw⟩ := init_total demoHash demoEntropy demoChallenge (by decide)
  rw [hst] at h0
  simp only [Option.some.injEq] at h0
  subst h0
  obtain ⟨st1, hs, _⟩ := step_total demoHash st hw
  exact ⟨st, st1, hst, hlen, hs, (step_replaces_iff_smaller demoHash st st1 hlen hs).2.1⟩

theorem tdiv_gt_iff (x cps timeout : Int) (hc : 0 < cps) (ht : 0 ≤ timeout) :
    x.tdiv cps > timeout ↔ (timeout + 1) * cps ≤ x := by
  by_cases hx : 0 ≤ x
  · rw [Int.tdiv_eq_ediv hx (le_of_lt hc)]
    constructor
    · intro h
      exact (Int.le_ediv_iff_mul_le hc).mp (by omega)
    · intro h
      have := (Int.le_ediv_iff_mul_le hc).mpr h
      omega
  · have hneg : x.tdiv cps ≤ 0 := by
      have h1 : (-x).tdiv cps = -(x.tdiv cps) := Int.neg_tdiv _ _
      have h2 : 0 ≤ (-x).tdiv cps := Int.tdiv_nonneg (by omega) (le_of_lt hc)
      omega
    constructor
    · intro h; omega
    · intro h
      have : 0 ≤ (timeout + 1) * cps := by positivity
      omega

theorem loop_exit (H : Hash) (cps c0 timeout : Int) : ∀ (readings : List Int)
    (st st1 : SearchState), hashcash1_Create_loop H cps c0 timeout readings st = some st1 →
    ∃ k r, readings[k]? = some r ∧ (r - c0).tdiv cps > timeout ∧
      (∀ j r1, j < k → readings[j]? = some r1 → ¬ (r1 - c0).tdiv cps > timeout) ∧
      st1.hashed.length = st.hashed.length + (k + 1)
  | [], _, _, h => by simp [hashcash1_Create_loop] at h
  | clockEnd :: readings, st, st1, h => by
    simp only [hashcash1_Create_loop] at h
    split at h
    · cases h
    · rename_i st2 hs
      have hh := (step_hashed H st st2 hs).1
      split at h
      · rename_i hgt
        simp only [Option.some.injEq] at h
        subst h
        refine ⟨0, clockEnd, by simp, hgt, ?_, ?_⟩
        · intro j r1 hj; omega
        · rw [hh]; simp
      · rename_i hgt
        obtain ⟨k, r, hk, hr, hbefore, hlen⟩ := loop_exit H cps c0 timeout readings st2 st1 h
        refine ⟨k + 1, r, by simpa using hk, hr, ?_, ?_⟩
        · intro j r1 hj hj1
          cases j with
          | zero =>
            simp only [List.getElem?_cons_zero, Option.some.injEq] at hj1
            rw [← hj1]; exact hgt
          | succ j =>
            simp only [List.getElem?_cons_succ] at hj1
            exact hbefore j r1 (by omega) hj1
        · rw [hlen, hh]; simp; omega

/-- Counterexample to C18: with 1000 ticks per second and a timeout of 1 second, the first
iteration ends 1500 ticks after the start, so the elapsed time exceeds the timeout, yet the
loop is not left there: with that reading alone the search has not returned, and with a
second reading of 2000 ticks it returns after the second iteration, three buffers hashed. -/
theorem deadline_counterexample :
    (1500 - 0 : Int) > 1 * 1000 ∧
      hashcash1_Create_run demoHash demoEntropy 1000 0 [1500] demoChallenge 1 = none ∧
      (hashcash1_Create_run demoHash demoEntropy 1000 0 [1500, 2000] demoChallenge 1).map
        (fun st => st.hashed.length) = some 3 := by
  decide

/-- C18 as amended: `hashcash1_Create` leaves its loop at the end of the first iteration `k`
(counted from 0) whose clock reading `r` makes `(r - clockStart) / CLOCKS_PER_SEC`, rounded
toward zero, greater than `timeout`, and at no earlier iteration; `k + 2` buffers have then
been hashed. It does return when the readings contain such a reading. For a positive
`CLOCKS_PER_SEC` and a timeout that is not negative the test holds exactly when at least
`timeout + 1` whole seconds have elapsed. -/
theorem create_deadline (H : Hash) (entropy : Nat → Nat) (clocksPerSec clockStart : Int)
    (readings : List Int) (value : List Byte) (timeout : Int) (hv : 64 ≤ value.length) :
    (∀ st, hashcash1_Create_run H entropy clocksPerSec clockStart readings value timeout
        = some st →
        ∃ k r, readings[k]? = some r ∧ (r - clockStart).tdiv clocksPerSec > timeout ∧
          (∀ j r1, j < k → readings[j]? = some r1 →
            ¬ (r1 - clockStart).tdiv clocksPerSec > timeout) ∧
          st.hashed.length = k + 2) ∧
      ((∃ r ∈ readings, (r - clockStart).tdiv clocksPerSec > timeout) →
        ∃ st, hashcash1_Create_run H entropy clocksPerSec clockStart readings value timeout
          = some st) ∧
      (0 < clocksPerSec → 0 ≤ timeout →
        ∀ x : Int, x.tdiv clocksPerSec > timeout ↔ (timeout + 1) * clocksPerSec ≤ x) := by
  refine ⟨?_, run_total H entropy clocksPerSec clockStart readings value timeout hv,
    fun hc ht x => tdiv_gt_iff x clocksPerSec timeout hc ht⟩
  intro st hrun
  unfold hashcash1_Create_run at hrun
  split at hrun
  · cases hrun
  · rename_i st0 h0
    obtain ⟨k, r, hk, hr, hbefore, hlen⟩ :=
      loop_exit H clocksPerSec clockStart timeout readings st0 st hrun
    refine ⟨k, r, hk, hr, hbefore, ?_⟩
    rw [hlen, (init_inv H entropy value st0 h0).2.1]
    simp
    omega

/-- Witness for C18 as amended: the run of the counterexample returns at the reading of
2000 ticks. -/
theorem create_deadline_witness :
    64 ≤ demoChallenge.length ∧
      ∃ st, hashcash1_Create_run demoHash demoEntropy 1000 0 [1500, 2000] demoChallenge 1
        = some st :=
  ⟨by decide, (create_deadline demoHash demoEntropy 1000 0 [1500, 2000] demoChallenge 1
    (by decide)).2.1 ⟨2000, by simp, by decide⟩⟩

theorem beValue_lt : ∀ d : List Byte, beValue d < 256 ^ d.length
  | [] => by simp [beValue]
  | b :: bs => by
    have ih := beValue_lt bs
    have hb : b.val + 1 ≤ 256 := b.isLt
    have : (b.val + 1) * 256 ^ bs.length ≤ 256 * 256 ^ bs.length :=
      Nat.mul_le_mul_right _ hb
    simp only [beValue, List.length_cons, pow_succ]
    linarith

theorem mul_add_lt_iff (a b k x : Nat) (hb : b < x) : a * x + b < k * x ↔ a < k := by
  constructor
  · intro h
    by_contra hc
    have : k * x ≤ a * x := Nat.mul_le_mul_right _ (by omega)
    omega
  · intro h
    have : (a + 1) * x ≤ k * x := Nat.mul_le_mul_right _ h
    linarith

theorem leadingZeroBits_ge_iff : ∀ (d : List Byte) (n : Nat), n ≤ 8 * d.length →
    (n ≤ leadingZeroBits d ↔ beValue d < 2 ^ (8 * d.length - n))
  | [], n, h => by
    have : n = 0 := by simpa using h
    subst this
    simp [leadingZeroBits_nil, beValue]
  | a :: as, n, h => by
    have hX : (256 : Nat) ^ as.length = 2 ^ (8 * as.length) := by
      rw [show (256 : Nat) = 2 ^ 8 from rfl, ← pow_mul]
    have hB := beValue_lt as
    rw [hX] at hB
    have ha8 := lzByte_le a
    rw [leadingZeroBits_cons]
    simp only [beValue, List.length_cons, hX]
    simp only [List.length_cons] at h
    by_cases hz : lzByte a < 8
    · simp only [hz, if_true]
      have hapos : 1 ≤ a.val := by
        by_contra hc
        have := (lzByte_iff a ⟨8, by omega⟩).mpr (by simp; omega)
        simp at this
        omega
      by_cases hn : n ≤ 8
      · have hpow : 2 ^ (8 * (as.length + 1) - n) = 2 ^ (8 - n) * 2 ^ (8 * as.length) := by
          rw [← pow_add]; congr 1; omega
        rw [hpow, mul_add_lt_iff _ _ _ _ hB]
        exact lzByte_iff a ⟨n, by omega⟩
      · have hle : 2 ^ (8 * (as.length + 1) - n) ≤ 2 ^ (8 * as.length) :=
          Nat.pow_le_pow_right (by decide) (by omega)
        have hge : 2 ^ (8 * as.length) ≤ a.val * 2 ^ (8 * as.length) :=
          Nat.le_mul_of_pos_left _ hapos
        constructor
        · intro h1; omega
        · intro h1; omega
    · simp only [hz, if_false]
      have hazero : a.val = 0 := by
        have := (lzByte_iff a ⟨8, by omega⟩).mp (by simp; omega)
        simpa using this
      rw [hazero, Nat.zero_mul, Nat.zero_add]
      by_cases hn : n ≤ 8
      · have hle : 2 ^ (8 * as.length) ≤ 2 ^ (8 * (as.length + 1) - n) :=
          Nat.pow_le_pow_right (by decide) (by omega)
        constructor
        · intro _; omega
        · intro _; omega
      · have ih := leadingZeroBits_ge_iff as (n - 8) (by omega)
        have he : 8 * (as.length + 1) - n = 8 * as.length - (n - 8) := by omega
        rw [he, ← ih]
        omega

/-- C19: for a digest `d` of 64 bytes and `n ≤ 512`, the count that the scan of
`hashcash1_Verify` computes on `d` is at least `n` exactly when `d`, read as a 512-bit
big-endian unsigned integer, is below `2^(512 - n)`. -/
theorem scan_threshold (d : List Byte) (n : Nat) (hd : d.length = 64) (hn : n ≤ 512) :
    (n : Int) ≤ scanDigest d 64 0 0 ↔ beValue d < 2 ^ (512 - n) := by
  rw [scanDigest_eq 64 0 d 0 (by omega)]
  have h := leadingZeroBits_ge_iff d n (by omega)
  rw [hd] at h
  simp only [List.drop_zero, zero_add, Nat.cast_le]
  exact h

/-- Witness for C19: the all-zero digest meets the threshold of 512 bits. -/
theorem scan_threshold_witness :
    (List.replicate 64 (0 : Byte)).length = 64 ∧ (512 : Nat) ≤ 512 ∧
      (((512 : Nat) : Int) ≤ scanDigest (List.replicate 64 (0 : Byte)) 64 0 0 ↔
        beValue (List.replicate 64 (0 : Byte)) < 2 ^ (512 - 512)) :=
  ⟨by decide, by decide, scan_threshold (List.replicate 64 (0 : Byte)) 512 (by decide)
    (by decide)⟩

theorem Xorshift.iterate_wf : ∀ (k : Nat) (x : Xorshift), x.WF →
    ∃ x1, Xorshift.iterate k x = some x1 ∧ x1.WF ∧ x1.p = (x.p + k) % 64
  | 0, x, h => ⟨x, rfl, h, by have := h.2; simp only [Nat.add_zero]; omega⟩
  | k + 1, x, h => by
    obtain ⟨s0, s1, _, _, hn⟩ := Xorshift.next_eq x h.1 h.2
    have hw : Xorshift.WF ⟨x.s.set ((x.p + 1) % 64) (xorshiftWord s0 s1), (x.p + 1) % 64⟩ :=
      ⟨by simp [h.1], Nat.mod_lt _ (by decide)⟩
    obtain ⟨x2, hi, hw2, hp2⟩ := Xorshift.iterate_wf k _ hw
    refine ⟨x2, by simp only [Xorshift.iterate, hn, hi], hw2, ?_⟩
    rw [hp2]
    dsimp only
    omega

/-- C20: after any number `k` of `next()` calls on a constructed generator, started at
`p = 0`, every call has returned (no read or write was outside the 64 words), the array
still has 64 words, the index is `k mod 64`, so at most 63, and the next call returns as
well. -/
theorem xorshift_index_in_bounds (entropy : Nat → Nat) (k : Nat) :
    (Xorshift.create entropy).p = 0 ∧
      ∃ x, Xorshift.iterate k (Xorshift.create entropy) = some x ∧
        x.p ≤ 63 ∧ x.p = k % 64 ∧ x.s.length = 64 ∧ ∃ w x1, x.next = some (w, x1) := by
  obtain ⟨x, hi, hw, hp⟩ := Xorshift.iterate_wf k _ (Xorshift.create_wf entropy)
  obtain ⟨w, x1, hn, _⟩ := Xorshift.next_wf x hw
  have h0 : (Xorshift.create entropy).p = 0 := rfl
  rw [h0, Nat.zero_add] at hp
  exact ⟨h0, x, hi, by have := hw.2; omega, hp, hw.1, w, x1, hn⟩

theorem fromHexString_size_length (s : List Char) (buf : List Byte) (size : Nat)
    (h : fromHexString s = some (buf, size)) :
    size = (s.length + 1) / 2 ∧ buf.length = countdownIterations size := by
  unfold fromHexString at h
  dsimp only at h
  by_cases hodd : s.length % 2 ≠ 0
  · rw [if_pos hodd] at h
    obtain ⟨b1, hb, hl⟩ := fromHexString_loop_total
      (countdownIterations (('0' :: s).length / 2)) ('0' :: s)
      (by have := countdownIterations_le (('0' :: s).length / 2); omega)
    rw [hb] at h
    simp only [Option.some.injEq, Prod.mk.injEq] at h
    obtain ⟨h1, h2⟩ := h
    subst h1
    rw [← h2]
    exact ⟨rfl, hl⟩
  · rw [if_neg hodd] at h
    obtain ⟨b1, hb, hl⟩ := fromHexString_loop_total
      (countdownIterations (s.length / 2)) s
      (by have := countdownIterations_le (s.length / 2); omega)
    rw [hb] at h
    simp only [Option.some.injEq, Prod.mk.injEq] at h
    obtain ⟨h1, h2⟩ := h
    subst h1
    rw [← h2]
    exact ⟨by omega, hl⟩

/-- Counterexample to C7: a key and a challenge of 128 digits decode to exactly 64 bytes
each, and `verify` ends with exit code 1 without calling `hashcash1_Verify`; a key and a
challenge of 64 digits decode to 32 bytes each, fewer than 64, and `verify` does not fail
but calls `hashcash1_Verify` with them. -/
theorem main_verify_counterexample :
    fromHexString (List.replicate 128 '0') = some (List.replicate 64 0, 64) ∧
      main demoCore (commandLine ["hashcash1", "verify", String.mk (List.replicate 128 '0'),
        String.mk (List.replicate 128 '0')]) = ⟨[], some 1⟩ ∧
      fromHexString (List.replicate 64 '0') = some (List.replicate 32 0, 32) ∧
      (main demoCore (commandLine ["hashcash1", "verify", String.mk (List.replicate 64 '0'),
        String.mk (List.replicate 64 '0')])).events.head? =
        some (Event.verify (List.replicate 32 0) (List.replicate 32 0)) := by
  decide

/-- C7 as amended: the `verify` command fails with exit code 1, without any call of
`hashcash1_Verify` and so before any digest is computed, whenever the decoded key or the
decoded challenge is not exactly 32 bytes long; when both are exactly 32 bytes it calls
`hashcash1_Verify` with the two decoded buffers, and prints the count it returns and ends
with exit code 0. This holds whatever functions stand behind `hashcash1.h`. -/
theorem main_verify_size_check (core : Core) (a0 a3 a4 : List Char) (key value : List Byte)
    (keySize valueSize : Nat) (h3 : fromHexString a3 = some (key, keySize))
    (h4 : fromHexString a4 = some (value, valueSize)) :
    ((keySize ≠ 32 ∨ valueSize ≠ 32) →
        main core [a0, "hashcash1".toList, "verify".toList, a3, a4] = ⟨[], some 1⟩) ∧
      ((keySize = 32 ∧ valueSize = 32) →
        key.length = 32 ∧ value.length = 32 ∧
        (main core [a0, "hashcash1".toList, "verify".toList, a3, a4]).events.head? =
          some (Event.verify key value) ∧
        ∀ count, core.hashcash1_Verify key value = some count →
          main core [a0, "hashcash1".toList, "verify".toList, a3, a4] =
            ⟨[Event.verify key value, Event.print (toString count).toList], some 0⟩) := by
  rw [main_verify_eq]
  have h32 : countdownIterations 32 = 32 := by decide
  constructor
  · intro hne
    simp only [main_verify, List.getElem?_cons_succ, List.getElem?_cons_zero, h3, h4]
    by_cases hk : keySize = 32
    · have hv : valueSize ≠ 32 := by
        rcases hne with h | h
        · exact absurd hk h
        · exact h
      simp [hk, hv]
    · simp [hk]
  · rintro ⟨hk, hv⟩
    have l3 := (fromHexString_size_length a3 key keySize h3).2
    have l4 := (fromHexString_size_length a4 value valueSize h4).2
    rw [hk, h32] at l3
    rw [hv, h32] at l4
    refine ⟨l3, l4, ?_, ?_⟩
    · simp only [main_verify, List.getElem?_cons_succ, List.getElem?_cons_zero, h3, h4]
      cases core.hashcash1_Verify key value <;> simp [hk, hv]
    · intro count hc
      simp only [main_verify, List.getElem?_cons_succ, List.getElem?_cons_zero, h3, h4, hc]
      simp [hk, hv]

/-- Witness for C7 as amended: a key and a challenge of 64 digits `0`. -/
theorem main_verify_size_check_witness :
    fromHexString (List.replicate 64 '0') = some (List.replicate 32 0, 32) ∧
      (main demoCore ["Hashcash".toList, "hashcash1".toList, "verify".toList,
        List.replicate 64 '0', List.replicate 64 '0']).events.head? =
        some (Event.verify (List.replicate 32 0) (List.replicate 32 0)) :=
  ⟨by decide, ((main_verify_size_check demoCore "Hashcash".toList (List.replicate 64 '0')
    (List.replicate 64 '0') (List.replicate 32 0) (List.replicate 32 0) 32 32
    (by decide) (by decide)).2 ⟨rfl, rfl⟩).2.2.1⟩

/-- Counterexample to C8: `create` on a challenge of 128 digits prints a line of 64
hexadecimal digits, not 128, and the line decodes to 32 bytes. -/
theorem main_create_counterexample :
    ∃ key line,
      demoCore.hashcash1_Create demoChallenge 256 0 = some key ∧
      main demoCore (commandLine ["hashcash1", "create",
        String.mk ((List.replicate 64 "01".toList).flatten), "256", "0"]) =
        ⟨[Event.create demoChallenge 256 0, Event.print line], some 0⟩ ∧
      line.length = 64 ∧ line.length ≠ 128 ∧ fromHexString line = some (key.take 32, 32) := by
  refine ⟨(demoCore.hashcash1_Create demoChallenge 256 0).getD [],
    (toHexString ((demoCore.hashcash1_Create demoChallenge 256 0).getD []) 32).getD [],
    ?_, ?_, ?_, ?_, ?_⟩ <;> decide

/-- C8 as amended: the `create` command prints 32 bytes of key. Whatever function stands
behind `hashcash1_Create`, when it returns a buffer of at least 32 bytes the output line is
`toHexString(key, 32)`: the 64 lower-case hexadecimal digits of the first 32 bytes of that
buffer, and decoding the printed line with `fromHexString` yields exactly those 32 bytes,
the whole key when the key has 32 bytes. -/
theorem main_create_prints_32_bytes (core : Core) (a0 a3 a4 a5 : List Char)
    (value key : List Byte) (size : Nat) (h3 : fromHexString a3 = some (value, size))
    (hk : core.hashcash1_Create value (core.atoi a4) (core.atoi a5) = some key)
    (hlen : 32 ≤ key.length) :
    ∃ line, toHexString key 32 = some line ∧
      main core [a0, "hashcash1".toList, "create".toList, a3, a4, a5] =
        ⟨[Event.create value (core.atoi a4) (core.atoi a5), Event.print line], some 0⟩ ∧
      line.length = 64 ∧ (∀ c ∈ line, c ∈ lowerHexDigits) ∧
      fromHexString line = some (key.take 32, 32) ∧
      (key.length = 32 → fromHexString line = some (key, 32)) := by
  have ht : toHexString key 32 = some (hexChars (key.take 32)) :=
    toHexString_eq key 32 (by norm_num) hlen
  have hl : (key.take 32).length = 32 := by simp; omega
  have hd : fromHexString (hexChars (key.take 32)) = some (key.take 32, 32) := by
    have := fromHexString_hexChars (key.take 32) (by rw [hl]; norm_num)
    rw [hl] at this
    exact this
  refine ⟨hexChars (key.take 32), ht, ?_, ?_, hexChars_mem _, hd, ?_⟩
  · rw [main_create_eq]
    simp only [main_create, List.getElem?_cons_succ, List.getElem?_cons_zero, h3, hk, ht]
  · rw [hexChars_length, hl]
  · intro h32
    rw [hd, List.take_of_length_le (by omega)]

/-- Witness for C8 as amended: `create` on the 64-byte demonstration challenge. -/
theorem main_create_prints_32_bytes_witness :
    fromHexString (List.replicate 64 "01".toList).flatten = some (demoChallenge, 64) ∧
      ∃ key line, demoCore.hashcash1_Create demoChallenge 256 0 = some key ∧
        32 ≤ key.length ∧
        main demoCore ["Hashcash".toList, "hashcash1".toList, "create".toList,
          (List.replicate 64 "01".toList).flatten, "256".toList, "0".toList] =
          ⟨[Event.create demoChallenge 256 0, Event.print line], some 0⟩ ∧
        line.length = 64 ∧ fromHexString line = some (key.take 32, 32) := by
  have h3 : fromHexString (List.replicate 64 "01".toList).flatten
      = some (demoChallenge, 64) := by decide
  have hk : demoCore.hashcash1_Create demoChallenge (demoCore.atoi "256".toList)
      (demoCore.atoi "0".toList) = some (List.replicate 32 1) := by decide
  obtain ⟨line, _, hm, hl, _, hd, _⟩ :=
    main_create_prints_32_bytes demoCore "Hashcash".toList
      (List.replicate 64 "01".toList).flatten "256".toList "0".toList
      demoChallenge (List.replicate 32 1) 64 h3 hk (by decide)
  have ha : demoCore.atoi "256".toList = 256 := by decide
  have hb : demoCore.atoi "0".toList = 0 := by decide
  rw [ha, hb] at hm
  exact ⟨h3, List.replicate 32 1, line, by decide, by decide, hm, hl, hd⟩

end Hashcash
